import Mathlib

/-!
Shallow embedding of `src/app.py` (yuta-2001/ai-app): a restaurant-recommendation
pipeline that turns loosely structured JSON-ish text from a generative model into
validated restaurant records, with deterministic fallbacks, plus the Hot Pepper
candidate-fetch / model-rerank flow of the advanced search.

Modelling conventions:
* Python `str` is embedded as `List Char` (`PyStr`).
* Python runtime values flowing through `json.loads` / dict lookups are embedded
  as `JValue`; numbers keep their source lexeme (their numeric value is never
  inspected by the program).
* `json.loads` is embedded as a fuel-based recursive-descent parser `jsonLoads`
  (strict double-quote JSON plus `NaN`/`Infinity`/`-Infinity` constants, as in
  CPython's default decoder).  The fuel `2*length+16` is ample: every two fuel
  decrements consume at least one input character.
* The two `re` operations of the source (`re.findall(r'\{.*?\}', s, re.DOTALL)`
  and the two `re.sub` quote repairs) are embedded as character scanners with
  fuel equal to the input length (one fuel step consumes at least one char).
  `\w` and `\s` are modelled on the character classes the program exercises
  (`Char.isAlphanum || '_'`, ASCII whitespace).
* Code raising an exception that a surrounding `try` recovers is embedded as
  `Except Unit`; the external collaborators (OpenAI completion, Hot Pepper GET)
  are parameters: `Option PyStr` / `Option JValue`, `none` meaning the call (or
  `.content` access / `.json()` decoding) raised.
* Record validation follows pydantic's strict-`str` semantics: the four fields
  must be present and be strings; `RestaurantModel(**item)` applied to a
  non-mapping raises `TypeError`, which the per-item `except ValidationError`
  does not catch — embedded as `Except.error`.
-/

namespace AiApp

abbrev PyStr := List Char

/-- Apostrophe (single quote), written via its code point. -/
def sq : Char := Char.ofNat 39

/-- Backslash character. -/
def bslash : Char := Char.ofNat 92

/-- Left curly brace. -/
def lb : Char := Char.ofNat 123

/-- Right curly brace. -/
def rb : Char := Char.ofNat 125

/-- JSON whitespace as skipped by CPython's decoder: space, tab, LF, CR. -/
def isJsonWs (c : Char) : Bool :=
  c = ' ' || c = '\t' || c = '\n' || c = '\r'

/-- Python `str.strip()` / regex `\s` whitespace (ASCII range). -/
def isPySpace (c : Char) : Bool :=
  c = ' ' || c = '\t' || c = '\n' || c = '\r' || c.toNat = 11 || c.toNat = 12

/-- Regex `\w` on the character range the program exercises. -/
def isWordChar (c : Char) : Bool := c.isAlphanum || c = '_'

def skipWs : PyStr → PyStr
  | [] => []
  | c :: t => if isJsonWs c then skipWs t else c :: t

/-- Python `str.find`: index of the first occurrence (as `Option` instead of -1). -/
def pyFind (c : Char) : PyStr → Option Nat
  | [] => none
  | a :: t => if a = c then some 0 else (pyFind c t).map (· + 1)

/-- Python `str.rfind`: index of the last occurrence. -/
def pyRFind (c : Char) (s : PyStr) : Option Nat :=
  (pyFind c s.reverse).map (fun k => s.length - 1 - k)

/-- Python slice `s[i:j]` (for the in-range indices the program produces). -/
def pySlice (s : PyStr) (i j : Nat) : PyStr := (s.drop i).take (j - i)

/-- Python `str.strip()`. -/
def pyStrip (s : PyStr) : PyStr :=
  ((s.dropWhile isPySpace).reverse.dropWhile isPySpace).reverse

/-- Embedded Python/JSON runtime values.  Numbers keep their lexeme: the
program never inspects a numeric value, only types and strings. -/
inductive JValue : Type
  | null : JValue
  | bool (b : Bool) : JValue
  | num (lexeme : PyStr) : JValue
  | str (s : PyStr) : JValue
  | arr (items : List JValue) : JValue
  | obj (entries : List (PyStr × JValue)) : JValue

/-- Python dict lookup `d.get(k)`: parse order keeps duplicates, the last
binding wins (as when CPython builds a dict from JSON members). -/
def pyGet (kvs : List (PyStr × JValue)) (k : PyStr) : Option JValue :=
  match kvs.reverse.find? (fun p => p.1 = k) with
  | some p => some p.2
  | none => none

/-- Python `d.get(k, default)`. -/
def pyGetD (kvs : List (PyStr × JValue)) (k : PyStr) (d : JValue) : JValue :=
  (pyGet kvs k).getD d

/-- `isinstance(v, list)`. -/
def pyIsList : JValue → Bool
  | .arr _ => true
  | _ => false

/-- Hex digit value, for `\uXXXX` escapes. -/
def hexVal (c : Char) : Option Nat :=
  if '0' ≤ c ∧ c ≤ '9' then some (c.toNat - 48)
  else if 'a' ≤ c ∧ c ≤ 'f' then some (c.toNat - 87)
  else if 'A' ≤ c ∧ c ≤ 'F' then some (c.toNat - 55)
  else none

/-- JSON string body after the opening quote: returns the decoded content and
the input after the closing quote.  Raw control characters are rejected
(CPython `strict=True`); the standard escapes are decoded. -/
def stringBody : PyStr → Option (PyStr × PyStr)
  | [] => none
  | c :: t =>
    if c = '"' then some ([], t)
    else if c = bslash then
      match t with
      | [] => none
      | e :: t2 =>
        if e = '"' ∨ e = bslash ∨ e = '/' then
          (stringBody t2).map (fun p => (e :: p.1, p.2))
        else if e = 'b' then (stringBody t2).map (fun p => (Char.ofNat 8 :: p.1, p.2))
        else if e = 'f' then (stringBody t2).map (fun p => (Char.ofNat 12 :: p.1, p.2))
        else if e = 'n' then (stringBody t2).map (fun p => ('\n' :: p.1, p.2))
        else if e = 'r' then (stringBody t2).map (fun p => (Char.ofNat 13 :: p.1, p.2))
        else if e = 't' then (stringBody t2).map (fun p => ('\t' :: p.1, p.2))
        else if e = 'u' then
          match t2 with
          | h1 :: h2 :: h3 :: h4 :: t3 =>
            match hexVal h1, hexVal h2, hexVal h3, hexVal h4 with
            | some a, some b, some c2, some d =>
              (stringBody t3).map
                (fun p => (Char.ofNat (4096 * a + 256 * b + 16 * c2 + d) :: p.1, p.2))
            | _, _, _, _ => none
          | _ => none
        else none
    else if c.toNat < 32 then none
    else (stringBody t).map (fun p => (c :: p.1, p.2))

def digitSpan (l : PyStr) : PyStr × PyStr :=
  (l.takeWhile Char.isDigit, l.dropWhile Char.isDigit)

/-- Integer part of CPython's `NUMBER_RE`: `0` or a nonzero digit followed by
digits (no leading zeros). -/
def numIntPart : PyStr → Option (PyStr × PyStr)
  | [] => none
  | c :: t =>
    if c = '0' then some (['0'], t)
    else if c.isDigit then
      some (c :: (digitSpan t).1, (digitSpan t).2)
    else none

/-- Optional fraction part `(\.\d+)?`. -/
def numFrac (l : PyStr) : PyStr × PyStr :=
  match l with
  | '.' :: t =>
    if (digitSpan t).1 = [] then ([], l)
    else ('.' :: (digitSpan t).1, (digitSpan t).2)
  | _ => ([], l)

/-- Optional exponent part `([eE][-+]?\d+)?`. -/
def numExp (l : PyStr) : PyStr × PyStr :=
  match l with
  | c :: t =>
    if c = 'e' ∨ c = 'E' then
      match t with
      | s :: t2 =>
        if s = '+' ∨ s = '-' then
          if (digitSpan t2).1 = [] then ([], l)
          else (c :: s :: (digitSpan t2).1, (digitSpan t2).2)
        else if (digitSpan t).1 = [] then ([], l)
        else (c :: (digitSpan t).1, (digitSpan t).2)
      | [] => ([], l)
    else ([], l)
  | [] => ([], l)

/-- A JSON number at the head of the input, returned as its lexeme. -/
def parseNum (l : PyStr) : Option (PyStr × PyStr) :=
  match l with
  | '-' :: t =>
    match numIntPart t with
    | none => none
    | some (ip, r1) =>
      some ('-' :: ip ++ (numFrac r1).1 ++ (numExp (numFrac r1).2).1,
            (numExp (numFrac r1).2).2)
  | _ =>
    match numIntPart l with
    | none => none
    | some (ip, r1) =>
      some (ip ++ (numFrac r1).1 ++ (numExp (numFrac r1).2).1,
            (numExp (numFrac r1).2).2)

/-- Match a literal tail such as `rue` of `true`; returns the rest. -/
def expectLit : PyStr → PyStr → Option PyStr
  | [], r => some r
  | _ :: _, [] => none
  | p :: pt, c :: t => if c = p then expectLit pt t else none

mutual

/-- One JSON value at the head of the (already whitespace-skipped) input.
Fuel-based so that the kernel can evaluate it; fuel decreases on every
nesting/iteration step. -/
def parseVal : Nat → PyStr → Option (JValue × PyStr)
  | 0, _ => none
  | Nat.succ n, l =>
    match l with
    | [] => none
    | c :: t =>
      if c = '"' then (stringBody t).map (fun p => (JValue.str p.1, p.2))
      else if c = lb then
        match skipWs t with
        | [] => none
        | c2 :: t2 =>
          if c2 = rb then some (JValue.obj [], t2)
          else (objMembers n (c2 :: t2)).map (fun p => (JValue.obj p.1, p.2))
      else if c = '[' then
        match skipWs t with
        | [] => none
        | c2 :: t2 =>
          if c2 = ']' then some (JValue.arr [], t2)
          else (arrElems n (c2 :: t2)).map (fun p => (JValue.arr p.1, p.2))
      else if c = 't' then (expectLit "rue".toList t).map (fun r => (JValue.bool true, r))
      else if c = 'f' then (expectLit "alse".toList t).map (fun r => (JValue.bool false, r))
      else if c = 'n' then (expectLit "ull".toList t).map (fun r => (JValue.null, r))
      else if c = 'N' then (expectLit "aN".toList t).map (fun r => (JValue.num "NaN".toList, r))
      else if c = 'I' then
        (expectLit "nfinity".toList t).map (fun r => (JValue.num "Infinity".toList, r))
      else if c = '-' ∧ t.head? = some 'I' then
        (expectLit "Infinity".toList t).map (fun r => (JValue.num "-Infinity".toList, r))
      else (parseNum l).map (fun p => (JValue.num p.1, p.2))

/-- Array elements starting at the first element (input already ws-skipped,
known nonempty and not `]`). -/
def arrElems : Nat → PyStr → Option (List JValue × PyStr)
  | 0, _ => none
  | Nat.succ n, l =>
    match parseVal n l with
    | none => none
    | some (v, r) =>
      match skipWs r with
      | [] => none
      | c :: t =>
        if c = ']' then some ([v], t)
        else if c = ',' then (arrElems n (skipWs t)).map (fun p => (v :: p.1, p.2))
        else none

/-- Object members starting at the first key's opening quote. -/
def objMembers : Nat → PyStr → Option (List (PyStr × JValue) × PyStr)
  | 0, _ => none
  | Nat.succ n, l =>
    match l with
    | [] => none
    | c :: t =>
      if c = '"' then
        match stringBody t with
        | none => none
        | some (k, r1) =>
          match skipWs r1 with
          | [] => none
          | c2 :: r2 =>
            if c2 = ':' then
              match parseVal n (skipWs r2) with
              | none => none
              | some (v, r3) =>
                match skipWs r3 with
                | [] => none
                | c3 :: r4 =>
                  if c3 = rb then some ([(k, v)], r4)
                  else if c3 = ',' then
                    match skipWs r4 with
                    | [] => none
                    | c4 :: r5 =>
                      (objMembers n (c4 :: r5)).map (fun p => ((k, v) :: p.1, p.2))
                  else none
            else none
      else none

end

/-- Embedding of `json.loads`: parse one value, then require only whitespace
to remain (otherwise CPython raises `Extra data`).  `none` is a raised
`json.JSONDecodeError`. -/
def jsonLoads (s : PyStr) : Option JValue :=
  match parseVal (2 * s.length + 16) (skipWs s) with
  | some (v, r) => if skipWs r = [] then some v else none
  | none => none

/-- Scan for the first `}` (regex `.*?\}` with DOTALL): content before it and
the rest after it. -/
def breakAtRBrace : PyStr → Option (PyStr × PyStr)
  | [] => none
  | c :: t =>
    if c = rb then some ([], t)
    else (breakAtRBrace t).map (fun p => (c :: p.1, p.2))

/-- `re.findall(r'\{.*?\}', s, re.DOTALL)`: leftmost, non-overlapping minimal
brace-delimited matches.  Fuel-based (one step consumes at least one char). -/
def objectScanF : Nat → PyStr → List PyStr
  | 0, _ => []
  | Nat.succ n, l =>
    match l with
    | [] => []
    | c :: t =>
      if c = lb then
        match breakAtRBrace t with
        | some (inner, rest) => (lb :: inner ++ [rb]) :: objectScanF n rest
        | none => []
      else objectScanF n t

def objectScan (s : PyStr) : List PyStr := objectScanF s.length s

/-- The `{...}`-scan fallback branch of `safe_parse_json`: parse every minimal
brace match independently, keeping the successes. -/
def objFallback (s : PyStr) : JValue :=
  .arr ((objectScan s).filterMap jsonLoads)

/-- `safe_parse_json` (app.py lines 49-71): try the `[` .. `]` substring as a
JSON array; on failure (or no bracket pair) collect independently parsed
minimal `{...}` matches. -/
def safe_parse_json (s : PyStr) : JValue :=
  match pyFind '[' s, pyRFind ']' s with
  | some i, some j =>
    if i < j then
      match jsonLoads (pySlice s i (j + 1)) with
      | some v => v
      | none => objFallback s
    else objFallback s
  | _, _ => objFallback s

def nameK : PyStr := "name".toList
def addressK : PyStr := "address".toList
def genreK : PyStr := "genre".toList
def budgetK : PyStr := "budget".toList
def resultsK : PyStr := "results".toList
def shopK : PyStr := "shop".toList

/-- "不明" — the source's unknown/placeholder marker. -/
def fumei : PyStr := "不明".toList

/-- The `Restaurant` dataclass.  Python dataclass fields are unchecked at
runtime, and the Level-2 path can store arbitrary JSON values in them, so the
fields are `JValue`; the Level-1 path only ever stores strings (pydantic). -/
structure Restaurant where
  name : JValue
  address : JValue
  genre : JValue
  budget : JValue

/-- `RestaurantModel(**item)` for a mapping item: pydantic accepts the item iff
the four required keys are present with string values (extra keys ignored);
returns the validated record. -/
def pyValidateModel (kvs : List (PyStr × JValue)) : Option Restaurant :=
  match pyGet kvs nameK, pyGet kvs addressK, pyGet kvs genreK, pyGet kvs budgetK with
  | some (.str n), some (.str a), some (.str g), some (.str b) =>
    some ⟨.str n, .str a, .str g, .str b⟩
  | _, _, _, _ => none

/-- The validation loop of `parse_restaurants_to_dataclass`: items failing
pydantic validation are skipped; a non-mapping item makes `**item` raise
`TypeError`, which the `except ValidationError` does not catch. -/
def restLoop : List JValue → Except Unit (List Restaurant)
  | [] => .ok []
  | .obj kvs :: rest =>
    match pyValidateModel kvs with
    | some r => (restLoop rest).map (fun l => r :: l)
    | none => restLoop rest
  | _ :: _ => .error ()

/-- `parse_restaurants_to_dataclass` (app.py lines 74-97). -/
def parse_restaurants_to_dataclass : JValue → Except Unit (List Restaurant)
  | .obj kvs => restLoop [.obj kvs]
  | .arr xs => restLoop xs
  | _ => .ok []

/-- Match for `'(\w+)':` right after a trigger character: an apostrophe, a
nonempty run of word chars, an apostrophe, a colon.  Returns the key and the
rest after the colon. -/
def keyMatch (l : PyStr) : Option (PyStr × PyStr) :=
  match l with
  | [] => none
  | c :: t =>
    if c = sq then
      match t.dropWhile isWordChar with
      | c2 :: c3 :: tail =>
        if c2 = sq ∧ c3 = ':' ∧ t.takeWhile isWordChar ≠ [] then
          some (t.takeWhile isWordChar, tail)
        else none
      | _ => none
    else none

/-- `re.sub(r"(\s|{|,)'(\w+)':", r'\1"\2":', s)`: leftmost non-overlapping
scan; on a match the whole match is consumed.  Fuel-based (`length` is ample:
each step consumes at least one character). -/
def subKeysF : Nat → PyStr → PyStr
  | 0, l => l
  | Nat.succ n, l =>
    match l with
    | [] => []
    | c :: t =>
      if isPySpace c || c = lb || c = ',' then
        match keyMatch t with
        | some (w, tail) => c :: '"' :: w ++ '"' :: ':' :: subKeysF n tail
        | none => c :: subKeysF n t
      else c :: subKeysF n t

def subKeys (s : PyStr) : PyStr := subKeysF s.length s

/-- Match for `\s*'([^']*)'` right after a colon: whitespace, an apostrophe, a
(possibly empty) run of non-apostrophe chars, an apostrophe.  Returns the
value and the rest after the closing apostrophe. -/
def valMatch (l : PyStr) : Option (PyStr × PyStr) :=
  match l.dropWhile isPySpace with
  | c :: t =>
    if c = sq then
      match t.dropWhile (fun x => x != sq) with
      | _ :: tail => some (t.takeWhile (fun x => x != sq), tail)
      | [] => none
    else none
  | [] => none

/-- `re.sub(r":\s*\'([^\']*)\'", r': "\1"', s)`: leftmost non-overlapping scan;
the replacement normalizes the whitespace to a single space. -/
def subValsF : Nat → PyStr → PyStr
  | 0, l => l
  | Nat.succ n, l =>
    match l with
    | [] => []
    | c :: t =>
      if c = ':' then
        match valMatch t with
        | some (v, tail) => ':' :: ' ' :: '"' :: v ++ '"' :: subValsF n tail
        | none => c :: subValsF n t
      else c :: subValsF n t

def subVals (s : PyStr) : PyStr := subValsF s.length s

/-- `fix_json_single_quotes` (app.py lines 101-109): key repair then value
repair. -/
def fix_json_single_quotes (s : PyStr) : PyStr := subVals (subKeys s)

/-- The extraction step shared by Level 1:
`parse_restaurants_to_dataclass(safe_parse_json(text))`. -/
def extractRecords (s : PyStr) : Except Unit (List Restaurant) :=
  parse_restaurants_to_dataclass (safe_parse_json s)

/-- The body of the Level-1 `try` block after the completion call: extract,
retry after quote repair if empty, raise `ValueError` if still empty. -/
def level1_try (content : PyStr) : Except Unit (List Restaurant) :=
  match extractRecords content with
  | .error e => .error e
  | .ok rs =>
    match if rs.isEmpty then extractRecords (fix_json_single_quotes content) else .ok rs with
    | .error e => .error e
    | .ok rs2 => if rs2.isEmpty then .error () else .ok rs2

/-- The Level-1 fallback record synthesized in the `except` branch. -/
def level1_fallback (location genre : PyStr) (budget : Int) : Restaurant :=
  ⟨.str "サンプル食堂".toList,
   .str (location ++ " サンプル町1-2-3".toList),
   .str genre,
   .str (if 0 < budget then (toString budget).toList ++ "円以下".toList else fumei)⟩

/-- `generate_restaurant_recommendations_level1` (app.py lines 113-180).
`model_resp` is the completion collaborator's behaviour: `none` when the API
call raised (or `.content` was `None`), `some text` when it returned text.
`menu` and `budget` feed only the prompt and the fallback record. -/
def generate_restaurant_recommendations_level1 (location genre _menu : PyStr)
    (budget : Int) (model_resp : Option PyStr) : List Restaurant :=
  match model_resp with
  | none => [level1_fallback location genre budget]
  | some content =>
    match level1_try content with
    | .ok rs => rs
    | .error _ => [level1_fallback location genre budget]

/-- Python `shops[:5]`: slicing works on sequences (lists, strings) and raises
`TypeError` on anything else. -/
def pySlice5 : JValue → Except Unit JValue
  | .arr l => .ok (.arr (l.take 5))
  | .str s => .ok (.str (s.take 5))
  | _ => .error ()

/-- The bracket extraction of `select_top_restaurants` (app.py lines 212-220):
strip, then take the first-`[`-to-last-`]` substring if such a pair exists. -/
def selExtract (t0 : PyStr) : PyStr :=
  match pyFind '[' (pyStrip t0), pyRFind ']' (pyStrip t0) with
  | some i, some j => if i < j then pySlice (pyStrip t0) i (j + 1) else pyStrip t0
  | _, _ => pyStrip t0

/-- `select_top_restaurants` (app.py lines 184-235).  `resp` is the rerank
model call's behaviour (`none` = the call raised or `.content` was `None`).
All raising paths — including `shops[:5]` on an unsliceable value — propagate
as `Except.error` to the caller's handler. -/
def select_top_restaurants (shops : JValue) (resp : Option PyStr) : Except Unit JValue :=
  match resp with
  | none => pySlice5 shops
  | some text =>
    match jsonLoads (selExtract text) with
    | some selected => if pyIsList selected then .ok selected else pySlice5 shops
    | none =>
      match jsonLoads (fix_json_single_quotes (selExtract text)) with
      | some selected => if pyIsList selected then .ok selected else pySlice5 shops
      | none => pySlice5 shops

/-- The parameter record sent to the Hot Pepper listings endpoint.  The float
coordinate constants are carried as their decimal literals (the program never
computes with them). -/
structure HPParams where
  lat : PyStr
  lng : PyStr
  range : Int
  format : PyStr
  key : PyStr
  genre : PyStr
  budget : PyStr
  lunch : Option PyStr

def lunchGenre : PyStr := "内定者バイトランチ".toList

/-- `budget_code` from `outing_genre` (app.py lines 250-255). -/
def budgetCodeOf (outing_genre : PyStr) : PyStr :=
  if outing_genre = lunchGenre then "B001,B002".toList else "B008,B003".toList

/-- `lunch_param` from `outing_genre`; included in the params only when set. -/
def lunchParamOf (outing_genre : PyStr) : Option PyStr :=
  if outing_genre = lunchGenre then some ['1'] else none

/-- `office_coordinates.get(office, shibuya)` (app.py lines 257-261). -/
def officeCoords (office : PyStr) : PyStr × PyStr :=
  if office = "渋谷スクランブルスクエア".toList then
    ("35.65839321".toList, "139.70230429".toList)
  else if office = "abema towers".toList then ("35.661".toList, "139.710".toList)
  else ("35.65839321".toList, "139.70230429".toList)

/-- `distance_mapping.get(distance, 3)` (app.py lines 263-264). -/
def rangeOf (distance : Int) : Int :=
  if distance = 300 then 1
  else if distance = 500 then 2
  else if distance = 1000 then 3
  else if distance = 2000 then 4
  else if distance = 3000 then 5
  else 3

/-- The `params` dict passed to `requests.get` (app.py lines 268-278). -/
def build_params (office outing_genre : PyStr) (genre : PyStr × PyStr)
    (distance : Int) (api_key : PyStr) : HPParams :=
  { lat := (officeCoords office).1
    lng := (officeCoords office).2
    range := rangeOf distance
    format := "json".toList
    key := api_key
    genre := genre.1
    budget := budgetCodeOf outing_genre
    lunch := lunchParamOf outing_genre }

/-- `data.get("results", {}).get("shop", [])`: `.get` on a non-dict raises
`AttributeError`. -/
def get_shops : JValue → Except Unit JValue
  | .obj kvs =>
    match pyGetD kvs resultsK (.obj []) with
    | .obj r => .ok (pyGetD r shopK (.arr []))
    | _ => .error ()
  | _ => .error ()

/-- The per-shop mapping of the Level-2 loop (app.py lines 291-308): `.get`
with defaults; a nested genre object contributes its name (`.get` on a
non-dict genre value raises); a dict budget contributes its name, any other
budget value is copied as-is. -/
def shopToRestaurant (genre_name : PyStr) : JValue → Except Unit Restaurant
  | .obj kvs =>
    match pyGetD kvs genreK (.obj []) with
    | .obj g =>
      .ok ⟨pyGetD kvs nameK (.str fumei),
           pyGetD kvs addressK (.str fumei),
           pyGetD g nameK (.str genre_name),
           match pyGetD kvs budgetK (.str fumei) with
           | .obj bk => pyGetD bk nameK (.str fumei)
           | other => other⟩
    | _ => .error ()
  | _ => .error ()

def shopsLoop (genre_name : PyStr) : List JValue → Except Unit (List Restaurant)
  | [] => .ok []
  | s :: t =>
    match shopToRestaurant genre_name s with
    | .error e => .error e
    | .ok r =>
      match shopsLoop genre_name t with
      | .error e => .error e
      | .ok rest => .ok (r :: rest)

/-- `for shop in shops` over the reranked value: a list iterates its elements;
iterating any non-list value either raises at `shop.get` (string chars, dict
keys, non-iterables) or produces no record and raises at the post-loop
emptiness check, so every non-list case reaches the `except` fallback — the
model collapses them to `error`. -/
def mapShops (genre_name : PyStr) : JValue → Except Unit (List Restaurant)
  | .arr l => shopsLoop genre_name l
  | _ => .error ()

/-- The body of the Level-2 `try` block: fetch, extract shops, rerank, map,
raise `ValueError` if empty. -/
def level2_try (p : HPParams) (genre_name : PyStr) (fetch : HPParams → Option JValue)
    (rerank_resp : Option PyStr) : Except Unit (List Restaurant) :=
  match fetch p with
  | none => .error ()
  | some data =>
    match get_shops data with
    | .error e => .error e
    | .ok shops =>
      match select_top_restaurants shops rerank_resp with
      | .error e => .error e
      | .ok shops2 =>
        match mapShops genre_name shops2 with
        | .error e => .error e
        | .ok restaurants =>
          if restaurants.isEmpty then .error () else .ok restaurants

/-- The Level-2 fallback record synthesized in the `except` branch; note its
budget field carries the raw budget-code text. -/
def level2_fallback (office : PyStr) (genre_name : PyStr) (outing_genre : PyStr) : Restaurant :=
  ⟨.str "サンプル食堂".toList,
   .str (office ++ "周辺 サンプル町1-2-3".toList),
   .str genre_name,
   .str (budgetCodeOf outing_genre)⟩

/-- `generate_restaurant_recommendations_level2` (app.py lines 239-322).
`fetch` is the listings collaborator (`none` = transport error, non-2xx
status, or a `.json()` decode failure); `rerank_resp` is the rerank model
collaborator, used only if `select_top_restaurants` is reached. -/
def generate_restaurant_recommendations_level2 (office outing_genre : PyStr)
    (genre : PyStr × PyStr) (distance : Int) (api_key : PyStr)
    (fetch : HPParams → Option JValue) (rerank_resp : Option PyStr) : List Restaurant :=
  match level2_try (build_params office outing_genre genre distance api_key)
      genre.2 fetch rerank_resp with
  | .ok rs => rs
  | .error _ => [level2_fallback office genre.2 outing_genre]

/-! ### Specification-side artifacts

`Rec4` abstracts a restaurant record as four raw field strings; the renderers
below produce the double-quoted JSON text for such records (`renderArrD`), the
single-quoted variant a model might emit (`renderArrS`), and the intermediate
form after key repair only (`renderArrM`).  They let the extraction claims be
stated for every well-formed array/object text over a safe character class. -/

structure Rec4 where
  name : PyStr
  address : PyStr
  genre : PyStr
  budget : PyStr

/-- Characters that may appear in a rendered field value: printable, neither
kind of quote, no backslash, no braces (the model's objects are flat). -/
def safeChar (c : Char) : Bool :=
  32 ≤ c.toNat && c ≠ '"' && c ≠ sq && c ≠ bslash && c ≠ lb && c ≠ rb

def safeStr (s : PyStr) : Bool := s.all safeChar

def safeRec (r : Rec4) : Bool :=
  safeStr r.name && safeStr r.address && safeStr r.genre && safeStr r.budget

/-- Additionally bracket-free (for texts that are a bare object, where a `[`
in a value would change the bracket-scoped scan). -/
def flatChar (c : Char) : Bool := safeChar c && c ≠ '[' && c ≠ ']'

def flatStr (s : PyStr) : Bool := s.all flatChar

def flatRec (r : Rec4) : Bool :=
  flatStr r.name && flatStr r.address && flatStr r.genre && flatStr r.budget

def fieldsOf (r : Rec4) : List (PyStr × PyStr) :=
  [(nameK, r.name), (addressK, r.address), (genreK, r.genre), (budgetK, r.budget)]

/-- The parsed value of such an object text. -/
def jObjOf (r : Rec4) : JValue :=
  .obj [(nameK, .str r.name), (addressK, .str r.address),
        (genreK, .str r.genre), (budgetK, .str r.budget)]

/-- The validated record such an object yields. -/
def recOf (r : Rec4) : Restaurant :=
  ⟨.str r.name, .str r.address, .str r.genre, .str r.budget⟩

/-- `"k": "v"`. -/
def renderFieldD (k v : PyStr) : PyStr :=
  '"' :: k ++ '"' :: ':' :: ' ' :: '"' :: v ++ ['"']

/-- `'k': 'v'`. -/
def renderFieldS (k v : PyStr) : PyStr :=
  sq :: k ++ sq :: ':' :: ' ' :: sq :: v ++ [sq]

/-- `"k": 'v'` — after key repair, before value repair. -/
def renderFieldM (k v : PyStr) : PyStr :=
  '"' :: k ++ '"' :: ':' :: ' ' :: sq :: v ++ [sq]

def renderFieldsWith (f : PyStr → PyStr → PyStr) : List (PyStr × PyStr) → PyStr
  | [] => []
  | [p] => f p.1 p.2
  | p :: t => f p.1 p.2 ++ ',' :: ' ' :: renderFieldsWith f t

def renderObjD (r : Rec4) : PyStr := lb :: renderFieldsWith renderFieldD (fieldsOf r) ++ [rb]

def renderObjS (r : Rec4) : PyStr := lb :: renderFieldsWith renderFieldS (fieldsOf r) ++ [rb]

def renderObjM (r : Rec4) : PyStr := lb :: renderFieldsWith renderFieldM (fieldsOf r) ++ [rb]

def joinObjs (f : Rec4 → PyStr) : List Rec4 → PyStr
  | [] => []
  | [r] => f r
  | r :: t => f r ++ ',' :: ' ' :: joinObjs f t

def renderArrD (rs : List Rec4) : PyStr := '[' :: joinObjs renderObjD rs ++ [']']

def renderArrS (rs : List Rec4) : PyStr := '[' :: joinObjs renderObjS rs ++ [']']

def renderArrM (rs : List Rec4) : PyStr := '[' :: joinObjs renderObjM rs ++ [']']

/-! ### Concrete collaborator behaviours used by the counterexamples -/

/-- A single well-formed double-quoted JSON object holding the four required
keys with string values plus an extra key whose value is a nested object:
`{"name": "a", "address": "b", "genre": "c", "budget": "d", "note": {"x": "y"}}`. -/
def c2text : PyStr :=
  lb :: "\"name\": \"a\", \"address\": \"b\", \"genre\": \"c\", \"budget\": \"d\", \"note\": ".toList
    ++ lb :: "\"x\": \"y\"".toList ++ [rb, rb]

/-- Its parsed value. -/
def c2val : JValue :=
  .obj [(nameK, .str ['a']), (addressK, .str ['b']), (genreK, .str ['c']),
        (budgetK, .str ['d']), ("note".toList, .obj [(['x'], .str ['y'])])]

/-- A rerank model response that is a JSON array of six numbers. -/
def c3resp : PyStr := "[1, 2, 3, 4, 5, 6]".toList

/-- A listings body whose results collection contains zero shops. -/
def zeroShopBody : JValue := .obj [(resultsK, .obj [(shopK, .arr [])])]

/-- A rerank model response inventing one shop: `[{"name": "X"}]`. -/
def c4resp : PyStr := '[' :: lb :: "\"name\": \"X\"".toList ++ [rb, ']']

/-- Python scalar values (not a mapping, not a sequence). -/
def isPyScalar : JValue → Bool
  | .null => true
  | .bool _ => true
  | .num _ => true
  | .str _ => true
  | _ => false

/-- `isinstance(v, dict)`. -/
def isMapping : JValue → Bool
  | .obj _ => true
  | _ => false

/-- What pydantic validation makes of one batch item that is a mapping. -/
def modelOf : JValue → Option Restaurant
  | .obj kvs => pyValidateModel kvs
  | _ => none

/-- Head test: does the text start with an apostrophe? -/
def headIsSq : PyStr → Bool
  | x :: _ => x = sq
  | [] => false

/-- Texts in which every left brace is immediately followed by an apostrophe
(true of the single-quoted renders): every minimal-brace match then starts
`{'` and cannot parse as JSON. -/
def lbSqOkB : PyStr → Bool
  | [] => true
  | c :: t => (c != lb || headIsSq t) && lbSqOkB t

/-! ### Helper lemmas -/

theorem level1_try_ok {c : PyStr} {rs : List Restaurant}
    (h : level1_try c = .ok rs) : rs ≠ [] := by
  unfold level1_try at h
  split at h
  · exact absurd h (by simp)
  · split at h
    · exact absurd h (by simp)
    · split at h
      · exact absurd h (by simp)
      · next h3 =>
        injection h with h4
        subst h4
        simpa using h3

theorem level2_try_ok {p : HPParams} {gn : PyStr} {fetch : HPParams → Option JValue}
    {rr : Option PyStr} {rs : List Restaurant}
    (h : level2_try p gn fetch rr = .ok rs) : rs ≠ [] := by
  unfold level2_try at h
  split at h
  · exact absurd h (by simp)
  · split at h
    · exact absurd h (by simp)
    · split at h
      · exact absurd h (by simp)
      · split at h
        · exact absurd h (by simp)
        · split at h
          · exact absurd h (by simp)
          · next h5 =>
            injection h with h6
            subst h6
            simpa using h5

theorem pyFind_drop {c : Char} : ∀ {s : PyStr} {i : Nat},
    pyFind c s = some i → s.drop i = c :: s.drop (i + 1) := by
  intro s
  induction s with
  | nil => intro i h; simp [pyFind] at h
  | cons a t ih =>
    intro i h
    by_cases hac : a = c
    · rw [pyFind, if_pos hac] at h
      injection h with h2
      subst h2
      subst hac
      simp
    · rw [pyFind, if_neg hac] at h
      cases h2 : pyFind c t with
      | none => rw [h2] at h; exact absurd h (by simp)
      | some i' =>
        rw [h2] at h
        simp only [Option.map_some'] at h
        injection h with h3
        subst h3
        simpa using ih h2

theorem parseVal_arr_of_lbracket : ∀ {n : Nat} {t : PyStr} {v : JValue} {r : PyStr},
    parseVal n ('[' :: t) = some (v, r) → ∃ l, v = .arr l := by
  intro n t v r h
  cases n with
  | zero => exact absurd h (by simp [parseVal])
  | succ m =>
    rw [parseVal] at h
    rw [if_neg (by decide), if_neg (by decide), if_pos rfl] at h
    split at h
    · exact absurd h (by simp)
    · split at h
      · injection h with h2
        exact ⟨[], (congrArg Prod.fst h2).symm⟩
      · obtain ⟨p, _, he⟩ := Option.map_eq_some'.mp h
        exact ⟨p.1, (congrArg Prod.fst he).symm⟩

theorem jsonLoads_arr_of_lbracket : ∀ {s : PyStr} {v : JValue},
    s.head? = some '[' → jsonLoads s = some v → ∃ l, v = .arr l := by
  intro s v hhead h
  cases s with
  | nil => exact absurd hhead (by simp)
  | cons a t =>
    have ha : a = '[' := by simpa using hhead
    subst ha
    unfold jsonLoads at h
    rw [show skipWs ('[' :: t) = '[' :: t from by rw [skipWs]; simp [isJsonWs]] at h
    split at h
    · next v1 r heq =>
      split at h
      · injection h with h2
        subst h2
        exact parseVal_arr_of_lbracket heq
      · exact absurd h (by simp)
    · exact absurd h (by simp)

/-! ### Claim theorems (easy group) -/

/-- Claim C1: for every input to the two public operations and every behaviour
of the external collaborators (model/listings call raising — `none` — or
returning arbitrary text/bodies), the operation never raises (both embeddings
are total Lean functions; every internal raise is an `Except` recovered before
returning) and never returns an empty sequence. -/
theorem claim_c1 :
    (∀ location genre menu budget resp,
      generate_restaurant_recommendations_level1 location genre menu budget resp ≠ []) ∧
    (∀ office outing genre distance api_key fetch rr,
      generate_restaurant_recommendations_level2 office outing genre distance api_key
        fetch rr ≠ []) := by
  constructor
  · intro location genre menu budget resp
    unfold generate_restaurant_recommendations_level1
    cases resp with
    | none => simp
    | some content =>
      show (match level1_try content with
            | Except.ok rs => rs
            | Except.error _ => [level1_fallback location genre budget]) ≠ []
      cases h : level1_try content with
      | error e =>
        show [level1_fallback location genre budget] ≠ []
        simp
      | ok rs =>
        show rs ≠ []
        exact level1_try_ok h
  · intro office outing genre distance api_key fetch rr
    unfold generate_restaurant_recommendations_level2
    cases h : level2_try (build_params office outing genre distance api_key)
        genre.2 fetch rr with
    | error e =>
      show [level2_fallback office genre.2 outing] ≠ []
      simp
    | ok rs =>
      show rs ≠ []
      exact level2_try_ok h

/-- Claim C8: with the lunch outing purpose the listings parameters carry the
lunch-only filter (`lunch = "1"`) and the lunch budget-code set `B001,B002`
(the ≤2000-yen tiers); with the drinks purpose they carry `B008,B003` (the
≤5000-yen tiers) and no lunch parameter. -/
theorem claim_c8 : ∀ (office gc gn : PyStr) (distance : Int) (api_key : PyStr),
    ((build_params office lunchGenre (gc, gn) distance api_key).budget
        = "B001,B002".toList ∧
     (build_params office lunchGenre (gc, gn) distance api_key).lunch = some ['1']) ∧
    ((build_params office "内定者バイト飲み".toList (gc, gn) distance api_key).budget
        = "B008,B003".toList ∧
     (build_params office "内定者バイト飲み".toList (gc, gn) distance api_key).lunch
        = none) := by
  intro office gc gn distance api_key
  refine ⟨⟨?_, ?_⟩, ?_, ?_⟩
  · rw [build_params]
    rw [budgetCodeOf, if_pos rfl]
  · rw [build_params]
    rw [lunchParamOf, if_pos rfl]
  · rw [build_params]
    rw [budgetCodeOf, if_neg (by decide)]
  · rw [build_params]
    rw [lunchParamOf, if_neg (by decide)]

/-- Claim C9: a raw candidate surviving rerank (whose genre field is absent or
a nested object, so the mapping loop reaches the budget logic) maps without
error to a record whose budget is the `"不明"` marker when the budget field is
missing, the nested object's name field when it is a mapping, and the value
itself when it is a plain string. -/
theorem claim_c9 : ∀ (genre_name : PyStr) (kvs : List (PyStr × JValue)),
    (pyGet kvs genreK = none ∨ ∃ g, pyGet kvs genreK = some (.obj g)) →
    ∃ r, shopToRestaurant genre_name (.obj kvs) = .ok r ∧
      (pyGet kvs budgetK = none → r.budget = .str fumei) ∧
      (∀ s, pyGet kvs budgetK = some (.str s) → r.budget = .str s) ∧
      (∀ bk, pyGet kvs budgetK = some (.obj bk) →
        r.budget = pyGetD bk nameK (.str fumei)) := by
  intro gn kvs hg
  have hgd : ∃ g, pyGetD kvs genreK (.obj []) = .obj g := by
    rcases hg with h | ⟨g, h⟩
    · exact ⟨[], by simp [pyGetD, h]⟩
    · exact ⟨g, by simp [pyGetD, h]⟩
  obtain ⟨g, hgd⟩ := hgd
  refine ⟨_, by rw [shopToRestaurant]; rw [hgd], ?_, ?_, ?_⟩
  · intro hb
    simp [pyGetD, hb]
  · intro s hb
    simp [pyGetD, hb]
  · intro bk hb
    simp [pyGetD, hb]

/-- Claim C9 witness: a shop with no genre and no budget field maps to a
record with the unknown-budget marker. -/
theorem claim_c9_witness :
    ∃ r, shopToRestaurant ['G'] (.obj []) = .ok r ∧ r.budget = .str fumei := by
  obtain ⟨r, h1, h2, _, _⟩ := claim_c9 ['G'] [] (Or.inl rfl)
  exact ⟨r, h1, h2 rfl⟩

/-- Claim C10: `safe_parse_json` is total (it is a total Lean function; both
`json.loads` attempts catch their decode failures) and always returns a list:
either the parse of the bracket-scoped substring — necessarily an array, since
the substring starts at a `[` — or the (possibly empty) list of independently
parsed minimal brace-delimited objects. -/
theorem claim_c10 : ∀ s : PyStr, ∃ l, safe_parse_json s = .arr l ∧
    (l = (objectScan s).filterMap jsonLoads ∨
     ∃ i j, pyFind '[' s = some i ∧ pyRFind ']' s = some j ∧ i < j ∧
       jsonLoads (pySlice s i (j + 1)) = some (.arr l)) := by
  intro s
  unfold safe_parse_json
  split
  · next i j h1 h2 =>
    split
    · next hij =>
      split
      · next v h3 =>
        have hhead : (pySlice s i (j + 1)).head? = some '[' := by
          have hd := pyFind_drop h1
          unfold pySlice
          rw [show j + 1 - i = (j - i) + 1 from by omega, hd]
          simp
        obtain ⟨l, rfl⟩ := jsonLoads_arr_of_lbracket hhead h3
        exact ⟨l, rfl, Or.inr ⟨i, j, h1, h2, hij, h3⟩⟩
      · exact ⟨_, rfl, Or.inl rfl⟩
    · exact ⟨_, rfl, Or.inl rfl⟩
  · exact ⟨_, rfl, Or.inl rfl⟩

/-- Claim C2 counterexample: `c2text` is a single well-formed double-quoted
JSON object carrying the four required keys with string values (plus an extra
key with a nested-object value) — a whole-text direct parse would accept it
and validation would yield its record — yet the extraction pipeline (including
the quote-repair retry) extracts nothing and raises `ValueError`: there is no
direct-parse step, and the minimal-brace scan break on the nested object. -/
theorem c2_counterexample :
    jsonLoads c2text = some c2val ∧
    parse_restaurants_to_dataclass c2val =
      .ok [⟨.str ['a'], .str ['b'], .str ['c'], .str ['d']⟩] ∧
    level1_try c2text = .error () :=
  ⟨rfl, rfl, rfl⟩

/-- Claim C3 counterexample: with an empty candidate list and a model response
that parses to a six-element JSON array, `select_top_restaurants` returns all
six parsed values — the result is not capped at 5. -/
theorem c3_counterexample :
    select_top_restaurants (.arr []) (some c3resp) =
      .ok (.arr [.num ['1'], .num ['2'], .num ['3'], .num ['4'],
                 .num ['5'], .num ['6']]) ∧
    ([JValue.num ['1'], .num ['2'], .num ['3'], .num ['4'],
      .num ['5'], .num ['6']].length = 6) :=
  ⟨rfl, rfl⟩

/-- Claim C3 amended: the rerank step returns the first five raw candidates
unmodified whenever the rerank call raises, the response (after bracket
extraction) fails to parse even after quote repair, or parses to a non-list
value; but when the response parses to a list, that list is returned in full —
the 5-cap applies only to the fallback. -/
theorem c3_amended : ∀ (shops : List JValue) (t : PyStr),
    (select_top_restaurants (.arr shops) none = .ok (.arr (shops.take 5))) ∧
    (∀ v, jsonLoads (selExtract t) = some v → pyIsList v = false →
      select_top_restaurants (.arr shops) (some t) = .ok (.arr (shops.take 5))) ∧
    (jsonLoads (selExtract t) = none →
      jsonLoads (fix_json_single_quotes (selExtract t)) = none →
      select_top_restaurants (.arr shops) (some t) = .ok (.arr (shops.take 5))) ∧
    (∀ v, jsonLoads (selExtract t) = none →
      jsonLoads (fix_json_single_quotes (selExtract t)) = some v → pyIsList v = false →
      select_top_restaurants (.arr shops) (some t) = .ok (.arr (shops.take 5))) ∧
    (∀ l, jsonLoads (selExtract t) = some (.arr l) →
      select_top_restaurants (.arr shops) (some t) = .ok (.arr l)) ∧
    (∀ l, jsonLoads (selExtract t) = none →
      jsonLoads (fix_json_single_quotes (selExtract t)) = some (.arr l) →
      select_top_restaurants (.arr shops) (some t) = .ok (.arr l)) := by
  intro shops t
  refine ⟨rfl, ?_, ?_, ?_, ?_, ?_⟩
  · intro v h1 h2
    simp only [select_top_restaurants]
    rw [h1]
    simp [h2, pySlice5]
  · intro h1 h2
    simp only [select_top_restaurants]
    rw [h1, h2]
    rfl
  · intro v h1 h2 h3
    simp only [select_top_restaurants]
    rw [h1, h2]
    simp [h3, pySlice5]
  · intro l h1
    simp only [select_top_restaurants]
    rw [h1]
    rfl
  · intro l h1 h2
    simp only [select_top_restaurants]
    rw [h1, h2]
    rfl

/-- Claim C3 amended, witness: an unparsable response makes the rerank step
fall back to the first five (here: zero) candidates. -/
theorem c3_amended_witness :
    select_top_restaurants (.arr []) (some ['x']) = .ok (.arr []) :=
  (c3_amended [] ['x']).2.2.1 rfl rfl

/-- Claim C4 counterexample: on a listings body with zero shops, the advanced
search still runs the rerank step, so its outcome depends on the rerank
collaborator: a rerank response inventing `[{"name": "X"}]` produces that
record instead of the fallback, while a failing rerank call produces the
fallback. -/
theorem c4_counterexample :
    generate_restaurant_recommendations_level2 "Off".toList "内定者バイト飲み".toList
        ("G001".toList, "居酒屋".toList) 1000 [] (fun _ => some zeroShopBody)
        (some c4resp) =
      [⟨.str ['X'], .str fumei, .str "居酒屋".toList, .str fumei⟩] ∧
    generate_restaurant_recommendations_level2 "Off".toList "内定者バイト飲み".toList
        ("G001".toList, "居酒屋".toList) 1000 [] (fun _ => some zeroShopBody) none =
      [level2_fallback "Off".toList "居酒屋".toList "内定者バイト飲み".toList] ∧
    (⟨JValue.str ['X'], .str fumei, .str "居酒屋".toList, .str fumei⟩ : Restaurant) ≠
      level2_fallback "Off".toList "居酒屋".toList "内定者バイト飲み".toList := by
  refine ⟨rfl, rfl, fun h => ?_⟩
  have h2 := congrArg Restaurant.name h
  rw [level2_fallback] at h2
  exact absurd (JValue.str.inj h2) (by decide)

/-- Claim C4 amended: when the listings body holds zero shops the Reranker is
still invoked (on the empty list) and can change the result; but whenever the
rerank call fails, the advanced search returns exactly the single fallback
record built from the office, the requested genre name and the budget-code
text. -/
theorem c4_amended : ∀ (office outing gc gn : PyStr) (distance : Int) (api_key : PyStr),
    generate_restaurant_recommendations_level2 office outing (gc, gn) distance api_key
      (fun _ => some zeroShopBody) none = [level2_fallback office gn outing] := by
  intro office outing gc gn distance api_key
  rfl

/-- Claim C5 counterexample: a batch containing a non-mapping entry makes
validation raise (`RestaurantModel(**item)` raises `TypeError`, which the
`except ValidationError` does not catch) — even when another entry of the
batch is perfectly valid, nothing is returned. -/
theorem c5_counterexample :
    parse_restaurants_to_dataclass (.arr [.num ['1']]) = .error () ∧
    parse_restaurants_to_dataclass
      (.arr [jObjOf ⟨['a'], ['b'], ['c'], ['d']⟩, .num ['1']]) = .error () :=
  ⟨rfl, rfl⟩

/-- Claim C5 amended: top-level scalars are rejected without raising (empty
result); a batch whose entries are all mappings never raises — entries missing
a required key or with non-string values are silently dropped and the rest
kept; but a batch containing any non-mapping entry raises. -/
theorem c5_amended :
    (∀ j : JValue, isPyScalar j = true → parse_restaurants_to_dataclass j = .ok []) ∧
    (∀ items : List JValue, (∀ x ∈ items, isMapping x = true) →
      parse_restaurants_to_dataclass (.arr items) = .ok (items.filterMap modelOf)) ∧
    (∀ items : List JValue, ∀ x ∈ items, isMapping x = false →
      parse_restaurants_to_dataclass (.arr items) = .error ()) := by
  refine ⟨?_, ?_, ?_⟩
  · intro j hj
    cases j <;> simp_all [isPyScalar, parse_restaurants_to_dataclass]
  · intro items h
    show restLoop items = .ok (items.filterMap modelOf)
    induction items with
    | nil => rfl
    | cons x t ih =>
      have hx : isMapping x = true := h x (by simp)
      have ht := ih (fun y hy => h y (by simp [hy]))
      cases x with
      | obj kvs =>
        show (match pyValidateModel kvs with
              | some r => (restLoop t).map (fun l => r :: l)
              | none => restLoop t) = .ok ((JValue.obj kvs :: t).filterMap modelOf)
        cases hm : pyValidateModel kvs with
        | none =>
          show restLoop t = _
          rw [ht]
          simp [List.filterMap_cons, modelOf, hm]
        | some r =>
          show (restLoop t).map (fun l => r :: l) = _
          rw [ht]
          simp only [List.filterMap_cons, modelOf, hm]
          rfl
      | null => simp [isMapping] at hx
      | bool b => simp [isMapping] at hx
      | num l => simp [isMapping] at hx
      | str s => simp [isMapping] at hx
      | arr l => simp [isMapping] at hx
  · intro items x hmem hx
    show restLoop items = .error ()
    induction items with
    | nil => simp at hmem
    | cons y t ih =>
      rcases List.mem_cons.mp hmem with h | h
      · subst h
        cases x with
        | obj kvs => simp [isMapping] at hx
        | null => rfl
        | bool b => rfl
        | num l => rfl
        | str s => rfl
        | arr l => rfl
      · have ht := ih h
        cases y with
        | obj kvs =>
          show (match pyValidateModel kvs with
                | some r => (restLoop t).map (fun l => r :: l)
                | none => restLoop t) = .error ()
          cases hm : pyValidateModel kvs with
          | none => exact ht
          | some r =>
            show (restLoop t).map (fun l => r :: l) = _
            rw [ht]
            rfl
        | null => rfl
        | bool b => rfl
        | num l => rfl
        | str s => rfl
        | arr l => rfl

/-- Claim C5 amended, witness: a top-level `null` yields the empty result
without raising. -/
theorem c5_amended_witness : parse_restaurants_to_dataclass JValue.null = .ok [] :=
  c5_amended.1 .null rfl


theorem skipWs_nows (c : Char) (h : isJsonWs c = false) (t : PyStr) :
    skipWs (c :: t) = c :: t := by
  rw [skipWs, h]
  rfl

theorem skipWs_space (t : PyStr) : skipWs (' ' :: t) = skipWs t := by
  rw [skipWs]
  rfl

theorem safeStr_cons {c : Char} {t : PyStr} (h : safeStr (c :: t) = true) :
    safeChar c = true ∧ safeStr t = true := by
  simpa [safeStr] using h

theorem stringBody_safe : ∀ {v : PyStr}, safeStr v = true →
    ∀ rest, stringBody (v ++ '"' :: rest) = some (v, rest) := by
  intro v
  induction v with
  | nil =>
    intro _ rest
    rw [List.nil_append, stringBody.eq_def]
    try dsimp only
    rw [if_pos rfl]
  | cons c t ih =>
    intro h rest
    obtain ⟨hc, ht⟩ := safeStr_cons h
    simp only [safeChar, Bool.and_eq_true, decide_eq_true_eq] at hc
    obtain ⟨⟨⟨⟨⟨h32, hdq⟩, hsq⟩, hbs⟩, hlb⟩, hrb⟩ := hc
    rw [List.cons_append, stringBody.eq_def]
    try dsimp only
    rw [if_neg hdq, if_neg hbs, if_neg (by omega), ih ht]
    rfl

theorem parseVal_str (n : Nat) {v : PyStr} (h : safeStr v = true) (rest : PyStr) :
    parseVal (n + 1) ('"' :: (v ++ '"' :: rest)) = some (.str v, rest) := by
  rw [parseVal]
  try dsimp only
  rw [if_pos rfl, stringBody_safe h]
  rfl

theorem renderFields_head (q : PyStr × PyStr) (t : List (PyStr × PyStr)) :
    ∃ Y, renderFieldsWith renderFieldD (q :: t) = '"' :: Y := by
  cases t <;> simp [renderFieldsWith, renderFieldD]

theorem objMembers_renderD :
    ∀ (fl : List (PyStr × PyStr)) (n : Nat) (rest : PyStr),
      fl ≠ [] → (∀ p ∈ fl, safeStr p.1 = true ∧ safeStr p.2 = true) →
      fl.length + 1 ≤ n →
      objMembers n (renderFieldsWith renderFieldD fl ++ rb :: rest) =
        some (fl.map (fun p => (p.1, JValue.str p.2)), rest) := by
  intro fl
  induction fl with
  | nil => intro n rest hne _ _; exact absurd rfl hne
  | cons p t ih =>
    intro n rest _ hsafe hn
    obtain ⟨hk, hv⟩ := hsafe p (by simp)
    obtain ⟨m, rfl⟩ : ∃ m, n = m + 1 := ⟨n - 1, by omega⟩
    have hm1 : ∃ m2, m = m2 + 1 := ⟨m - 1, by simp at hn; omega⟩
    obtain ⟨m2, rfl⟩ := hm1
    cases t with
    | nil =>
      simp only [renderFieldsWith, renderFieldD]
      simp only [List.cons_append, List.append_assoc, List.nil_append]
      rw [objMembers]
      try dsimp only
      rw [if_pos rfl, stringBody_safe hk]
      try dsimp only
      rw [skipWs_nows ':' (by decide)]
      try dsimp only
      rw [if_pos rfl, skipWs_space, skipWs_nows '"' (by decide)]
      rw [parseVal_str m2 hv]
      try dsimp only
      rw [skipWs_nows rb (by decide)]
      try dsimp only
      rw [if_pos rfl]
      rfl
    | cons q t2 =>
      simp only [renderFieldsWith, renderFieldD]
      simp only [List.cons_append, List.append_assoc, List.nil_append]
      rw [objMembers]
      try dsimp only
      rw [if_pos rfl, stringBody_safe hk]
      try dsimp only
      rw [skipWs_nows ':' (by decide)]
      try dsimp only
      rw [if_pos rfl, skipWs_space, skipWs_nows '"' (by decide)]
      rw [parseVal_str m2 hv]
      try dsimp only
      rw [skipWs_nows ',' (by decide)]
      try dsimp only
      rw [if_neg (by decide), if_pos rfl, skipWs_space]
      have ihq := ih (m2 + 1) rest (by simp)
        (fun x hx => hsafe x (by simp [hx]))
        (by simp at hn ⊢; omega)
      obtain ⟨Y, hY⟩ := renderFields_head q t2
      rw [hY] at ihq ⊢
      rw [List.cons_append] at ihq ⊢
      rw [skipWs_nows '"' (by decide)]
      try dsimp only
      rw [ihq]
      rfl

theorem parseVal_renderObjD (r : Rec4) (n : Nat) (rest : PyStr)
    (hs : safeRec r = true) (hn : 6 ≤ n) :
    parseVal n (renderObjD r ++ rest) = some (jObjOf r, rest) := by
  obtain ⟨m, rfl⟩ : ∃ m, n = m + 1 := ⟨n - 1, by omega⟩
  obtain ⟨⟨⟨hn', ha'⟩, hg'⟩, hb'⟩ :
      ((safeStr r.name = true ∧ safeStr r.address = true) ∧
        safeStr r.genre = true) ∧ safeStr r.budget = true := by
    simpa [safeRec] using hs
  rw [renderObjD]
  simp only [List.cons_append, List.append_assoc, List.nil_append]
  rw [parseVal]
  try dsimp only
  rw [if_neg (by decide), if_pos rfl]
  rw [show fieldsOf r = (nameK, r.name) ::
    [(addressK, r.address), (genreK, r.genre), (budgetK, r.budget)] from rfl]
  obtain ⟨Y, hY⟩ := renderFields_head (nameK, r.name)
    [(addressK, r.address), (genreK, r.genre), (budgetK, r.budget)]
  rw [hY, List.cons_append, skipWs_nows '"' (by decide)]
  try dsimp only
  rw [if_neg (by decide)]
  rw [← List.cons_append, ← hY]
  rw [objMembers_renderD _ m rest (by simp) ?safe (by simp; omega)]
  case safe =>
    intro p hp
    simp only [List.mem_cons] at hp
    rcases hp with h | h | h | h | h
    · subst h; exact ⟨show safeStr nameK = true by decide, hn'⟩
    · subst h; exact ⟨show safeStr addressK = true by decide, ha'⟩
    · subst h; exact ⟨show safeStr genreK = true by decide, hg'⟩
    · subst h; exact ⟨show safeStr budgetK = true by decide, hb'⟩
    · simp at h
  · rfl

theorem renderObjD_head (r : Rec4) : ∃ Y, renderObjD r = lb :: Y := by
  simp [renderObjD]

theorem joinObjs_cons2 {f : Rec4 → PyStr} (r q : Rec4) (t : List Rec4) :
    joinObjs f (r :: q :: t) = f r ++ ',' :: ' ' :: joinObjs f (q :: t) := by
  rw [joinObjs]
  simp

theorem joinObjs_head (q : Rec4) (t : List Rec4) :
    ∃ Y, joinObjs renderObjD (q :: t) = lb :: Y := by
  obtain ⟨Y, hY⟩ := renderObjD_head q
  cases t with
  | nil => exact ⟨Y, by rw [joinObjs, hY]⟩
  | cons a b =>
    refine ⟨Y ++ ',' :: ' ' :: joinObjs renderObjD (a :: b), ?_⟩
    rw [joinObjs_cons2, hY]
    simp

theorem arrElems_renderD :
    ∀ (rs : List Rec4) (n : Nat) (rest : PyStr),
      rs ≠ [] → (∀ r ∈ rs, safeRec r = true) → 2 * rs.length + 6 ≤ n →
      arrElems n (joinObjs renderObjD rs ++ ']' :: rest) =
        some (rs.map jObjOf, rest) := by
  intro rs
  induction rs with
  | nil => intro n rest hne _ _; exact absurd rfl hne
  | cons r t ih =>
    intro n rest _ hsafe hn
    obtain ⟨m, rfl⟩ : ∃ m, n = m + 1 := ⟨n - 1, by omega⟩
    cases t with
    | nil =>
      rw [joinObjs, arrElems]
      rw [parseVal_renderObjD r m (']' :: rest) (hsafe r (by simp)) (by simp at hn; omega)]
      try dsimp only
      rw [skipWs_nows ']' (by decide)]
      try dsimp only
      rw [if_pos rfl]
      rfl
    | cons q t2 =>
      rw [joinObjs_cons2, arrElems]
      simp only [List.append_assoc, List.cons_append]
      rw [parseVal_renderObjD r m (',' :: ' ' ::
        (joinObjs renderObjD (q :: t2) ++ ']' :: rest)) (hsafe r (by simp))
        (by simp at hn; omega)]
      try dsimp only
      rw [skipWs_nows ',' (by decide)]
      try dsimp only
      rw [if_neg (by decide), if_pos rfl, skipWs_space]
      have ihq := ih m rest (by simp)
        (fun x hx => hsafe x (by simp [hx]))
        (by simp at hn ⊢; omega)
      obtain ⟨Y, hY⟩ := joinObjs_head q t2
      rw [hY] at ihq ⊢
      rw [List.cons_append] at ihq ⊢
      rw [skipWs_nows lb (by decide)]
      try dsimp only
      rw [ihq]
      rfl

theorem joinObjs_length_ge (rs : List Rec4) :
    rs.length ≤ (joinObjs renderObjD rs).length := by
  match rs with
  | [] => simp [joinObjs]
  | [r] =>
    obtain ⟨Y, hY⟩ := renderObjD_head r
    rw [joinObjs, hY]
    simp
  | r :: q :: t =>
    obtain ⟨Y, hY⟩ := renderObjD_head r
    have ih := joinObjs_length_ge (q :: t)
    rw [joinObjs_cons2, hY]
    have hx : ((lb :: Y) ++ ',' :: ' ' :: joinObjs renderObjD (q :: t)).length
        = Y.length + 3 + (joinObjs renderObjD (q :: t)).length := by
      simp
      omega
    rw [hx]
    simp only [List.length_cons] at ih ⊢
    omega

theorem jsonLoads_renderArrD (rs : List Rec4) (hs : ∀ r ∈ rs, safeRec r = true) :
    jsonLoads (renderArrD rs) = some (.arr (rs.map jObjOf)) := by
  cases rs with
  | nil => rfl
  | cons r t =>
    unfold jsonLoads
    rw [renderArrD]
    simp only [List.cons_append]
    rw [skipWs_nows '[' (by decide)]
    have hlen : (r :: t).length ≤ (joinObjs renderObjD (r :: t)).length :=
      joinObjs_length_ge (r :: t)
    obtain ⟨m, hm⟩ : ∃ m,
        2 * ('[' :: (joinObjs renderObjD (r :: t) ++ [']'])).length + 16 = m + 1 :=
      ⟨_, rfl⟩
    rw [hm, parseVal]
    try dsimp only
    rw [if_neg (by decide), if_neg (by decide), if_pos rfl]
    obtain ⟨Y, hY⟩ := joinObjs_head r t
    rw [hY, List.cons_append, skipWs_nows lb (by decide)]
    try dsimp only
    rw [if_neg (by decide)]
    rw [← List.cons_append, ← hY]
    rw [arrElems_renderD (r :: t) m [] (by simp) hs ?len]
    case len =>
      simp only [List.length_cons, List.length_append] at hm hlen ⊢
      omega
    rfl

theorem pyFind_renderArrD (rs : List Rec4) : pyFind '[' (renderArrD rs) = some 0 := by
  rw [renderArrD]
  simp only [List.cons_append]
  rw [pyFind, if_pos rfl]

theorem pyRFind_concat (c : Char) (l : PyStr) : pyRFind c (l ++ [c]) = some l.length := by
  unfold pyRFind
  rw [List.reverse_append]
  show (pyFind c (c :: l.reverse)).map _ = _
  rw [pyFind, if_pos rfl]
  simp

theorem pySlice_zero_len (s : PyStr) : pySlice s 0 s.length = s := by
  simp [pySlice]

theorem safe_parse_renderArrD (rs : List Rec4) (hs : ∀ r ∈ rs, safeRec r = true) :
    safe_parse_json (renderArrD rs) = .arr (rs.map jObjOf) := by
  unfold safe_parse_json
  have h1 : pyFind '[' (renderArrD rs) = some 0 := pyFind_renderArrD rs
  have h2 : pyRFind ']' (renderArrD rs) = some ('[' :: joinObjs renderObjD rs).length := by
    rw [renderArrD]
    exact pyRFind_concat ']' ('[' :: joinObjs renderObjD rs)
  rw [h1, h2]
  try dsimp only
  rw [if_pos (by simp)]
  have h3 : pySlice (renderArrD rs) 0 (('[' :: joinObjs renderObjD rs).length + 1)
      = renderArrD rs := by
    have hl : ('[' :: joinObjs renderObjD rs).length + 1 = (renderArrD rs).length := by
      simp [renderArrD]
    rw [hl, pySlice_zero_len]
  rw [h3, jsonLoads_renderArrD rs hs]

theorem pvm_jObjOf (r : Rec4) :
    pyValidateModel [(nameK, JValue.str r.name), (addressK, .str r.address),
      (genreK, .str r.genre), (budgetK, .str r.budget)] = some (recOf r) := rfl

theorem restLoop_jObjs (rs : List Rec4) :
    restLoop (rs.map jObjOf) = .ok (rs.map recOf) := by
  induction rs with
  | nil => rfl
  | cons r t ih =>
    rw [List.map_cons, List.map_cons]
    rw [show jObjOf r = JValue.obj [(nameK, JValue.str r.name), (addressK, .str r.address),
      (genreK, .str r.genre), (budgetK, .str r.budget)] from rfl]
    rw [restLoop, pvm_jObjOf]
    try dsimp only
    rw [ih]
    rfl

/-- Claim C6: for every well-formed double-quoted JSON array text over the safe
character class whose elements are objects carrying the four required keys with
string values, extraction returns exactly one record per array element, in the
array order, with each field value preserved verbatim. -/
theorem extractRecords_renderArrD (rs : List Rec4) (hs : ∀ r ∈ rs, safeRec r = true) :
    extractRecords (renderArrD rs) = .ok (rs.map recOf) := by
  unfold extractRecords
  rw [safe_parse_renderArrD rs hs]
  show restLoop (rs.map jObjOf) = _
  exact restLoop_jObjs rs

theorem claim_c6 : ∀ rs : List Rec4, (∀ r ∈ rs, safeRec r = true) →
    extractRecords (renderArrD rs) = .ok (rs.map recOf) := by
  intro rs hs
  exact extractRecords_renderArrD rs hs

/-- Claim C6 witness at a concrete one-element array. -/
theorem claim_c6_witness :
    extractRecords (renderArrD [⟨['a'], ['b'], ['c'], ['d']⟩]) =
      .ok [recOf ⟨['a'], ['b'], ['c'], ['d']⟩] :=
  claim_c6 [⟨['a'], ['b'], ['c'], ['d']⟩] (by decide)

/-! ### The object-scan on rendered texts -/

theorem renderFieldsWith_cons2 (f : PyStr → PyStr → PyStr) (p q : PyStr × PyStr)
    (t : List (PyStr × PyStr)) :
    renderFieldsWith f (p :: q :: t) =
      f p.1 p.2 ++ ',' :: ' ' :: renderFieldsWith f (q :: t) := by
  rw [renderFieldsWith]
  simp

theorem breakAtRBrace_split : ∀ {inner : PyStr}, rb ∉ inner → ∀ rest,
    breakAtRBrace (inner ++ rb :: rest) = some (inner, rest) := by
  intro inner
  induction inner with
  | nil =>
    intro _ rest
    rw [List.nil_append, breakAtRBrace, if_pos rfl]
  | cons c t ih =>
    intro h rest
    simp only [List.mem_cons, not_or] at h
    rw [List.cons_append, breakAtRBrace, if_neg (fun e => h.1 e.symm),
      ih h.2 rest]
    rfl

theorem objectScanF_skip : ∀ (s : PyStr) (n : Nat) (t : PyStr), lb ∉ s →
    objectScanF (s.length + n) (s ++ t) = objectScanF n t := by
  intro s
  induction s with
  | nil => intro n t _; simp
  | cons c s' ih =>
    intro n t h
    simp only [List.mem_cons, not_or] at h
    rw [List.cons_append,
      show (c :: s').length + n = (s'.length + n) + 1 from by simp; omega,
      objectScanF]
    rw [if_neg (fun e => h.1 e.symm)]
    exact ih n t h.2

theorem objectScanF_step (inner : PyStr) (h : rb ∉ inner) (n : Nat) (t : PyStr) :
    objectScanF (n + 1) (lb :: (inner ++ rb :: t)) =
      (lb :: inner ++ [rb]) :: objectScanF n t := by
  rw [objectScanF, if_pos rfl, breakAtRBrace_split h t]

theorem pyFind_not_mem {c : Char} : ∀ {s : PyStr}, c ∉ s → pyFind c s = none := by
  intro s
  induction s with
  | nil => intro _; rfl
  | cons a t ih =>
    intro h
    simp only [List.mem_cons, not_or] at h
    rw [pyFind, if_neg (fun e => h.1 e.symm), ih h.2]
    rfl

theorem mem_renderFieldsWith {f : PyStr → PyStr → PyStr} :
    ∀ {fl : List (PyStr × PyStr)} {c : Char}, c ∈ renderFieldsWith f fl →
      (∃ p ∈ fl, c ∈ f p.1 p.2) ∨ c = ',' ∨ c = ' ' := by
  intro fl
  induction fl with
  | nil => intro c hc; simp [renderFieldsWith] at hc
  | cons p t ih =>
    intro c hc
    cases t with
    | nil =>
      rw [renderFieldsWith] at hc
      exact Or.inl ⟨p, by simp, hc⟩
    | cons q t2 =>
      rw [renderFieldsWith_cons2] at hc
      simp only [List.mem_append, List.mem_cons] at hc
      rcases hc with h | h | h | h
      · exact Or.inl ⟨p, by simp, h⟩
      · exact Or.inr (Or.inl h)
      · exact Or.inr (Or.inr h)
      · rcases ih h with ⟨w, hw, hcw⟩ | h2
        · exact Or.inl ⟨w, by simp [hw], hcw⟩
        · exact Or.inr h2

theorem mem_renderFieldD {k v : PyStr} {c : Char} (h : c ∈ renderFieldD k v) :
    c = '"' ∨ c ∈ k ∨ c = ':' ∨ c = ' ' ∨ c ∈ v := by
  rw [renderFieldD] at h
  simp only [List.cons_append, List.mem_cons, List.mem_append] at h
  tauto

theorem mem_renderFieldS {k v : PyStr} {c : Char} (h : c ∈ renderFieldS k v) :
    c = sq ∨ c ∈ k ∨ c = ':' ∨ c = ' ' ∨ c ∈ v := by
  rw [renderFieldS] at h
  simp only [List.cons_append, List.mem_cons, List.mem_append] at h
  tauto

/-- The four fixed keys of a rendered record. -/
theorem keys_of_fieldsOf {r : Rec4} {p : PyStr × PyStr} (hp : p ∈ fieldsOf r) :
    p.1 = nameK ∨ p.1 = addressK ∨ p.1 = genreK ∨ p.1 = budgetK := by
  rw [fieldsOf] at hp
  simp only [List.mem_cons] at hp
  rcases hp with h | h | h | h | h <;> first
    | (subst h; simp)
    | simp at h

theorem values_of_fieldsOf {r : Rec4} (hs : safeRec r = true) {p : PyStr × PyStr}
    (hp : p ∈ fieldsOf r) : safeStr p.2 = true := by
  obtain ⟨⟨⟨hn', ha'⟩, hg'⟩, hb'⟩ :
      ((safeStr r.name = true ∧ safeStr r.address = true) ∧
        safeStr r.genre = true) ∧ safeStr r.budget = true := by
    simpa [safeRec] using hs
  rw [fieldsOf] at hp
  simp only [List.mem_cons] at hp
  rcases hp with h | h | h | h | h <;> first
    | (subst h; assumption)
    | simp at h

theorem safeChar_not_special {c : Char} (h : safeChar c = true) :
    c ≠ lb ∧ c ≠ rb ∧ c ≠ sq ∧ c ≠ '"' ∧ c ≠ bslash := by
  simp only [safeChar, Bool.and_eq_true, decide_eq_true_eq] at h
  exact ⟨h.1.2, h.2, h.1.1.1.2, h.1.1.1.1.2, h.1.1.2⟩

theorem safeStr_mem {v : PyStr} (h : safeStr v = true) {c : Char} (hc : c ∈ v) :
    safeChar c = true := by
  rw [safeStr, List.all_eq_true] at h
  exact h c hc

/-- Characters that are neither field values nor key letters nor structural
punctuation do not occur in a rendered double-quoted member list. -/
theorem not_in_renderFieldsD {r : Rec4} {c : Char}
    (hstruct : c ≠ '"' ∧ c ≠ ':' ∧ c ≠ ' ' ∧ c ≠ ',')
    (hkeys : c ∉ nameK ∧ c ∉ addressK ∧ c ∉ genreK ∧ c ∉ budgetK)
    (hvals : ∀ p ∈ fieldsOf r, c ∉ p.2) :
    c ∉ renderFieldsWith renderFieldD (fieldsOf r) := by
  intro hmem
  rcases mem_renderFieldsWith hmem with ⟨p, hp, hc⟩ | h | h
  · rcases mem_renderFieldD hc with h | h | h | h | h
    · exact hstruct.1 h
    · rcases keys_of_fieldsOf hp with hk | hk | hk | hk <;> rw [hk] at h <;> tauto
    · exact hstruct.2.1 h
    · exact hstruct.2.2.1 h
    · exact hvals p hp h
  · exact hstruct.2.2.2 h
  · exact hstruct.2.2.1 h

theorem not_in_renderFieldsS {r : Rec4} {c : Char}
    (hstruct : c ≠ sq ∧ c ≠ ':' ∧ c ≠ ' ' ∧ c ≠ ',')
    (hkeys : c ∉ nameK ∧ c ∉ addressK ∧ c ∉ genreK ∧ c ∉ budgetK)
    (hvals : ∀ p ∈ fieldsOf r, c ∉ p.2) :
    c ∉ renderFieldsWith renderFieldS (fieldsOf r) := by
  intro hmem
  rcases mem_renderFieldsWith hmem with ⟨p, hp, hc⟩ | h | h
  · rcases mem_renderFieldS hc with h | h | h | h | h
    · exact hstruct.1 h
    · rcases keys_of_fieldsOf hp with hk | hk | hk | hk <;> rw [hk] at h <;> tauto
    · exact hstruct.2.1 h
    · exact hstruct.2.2.1 h
    · exact hvals p hp h
  · exact hstruct.2.2.2 h
  · exact hstruct.2.2.1 h

theorem safe_values_no_special {r : Rec4} (hs : safeRec r = true) {c : Char}
    (hc : safeChar c = false) : ∀ p ∈ fieldsOf r, c ∉ p.2 := by
  intro p hp hmem
  have := safeStr_mem (values_of_fieldsOf hs hp) hmem
  rw [this] at hc
  exact absurd hc (by simp)

theorem lb_not_in_renderFieldsD {r : Rec4} (hs : safeRec r = true) :
    lb ∉ renderFieldsWith renderFieldD (fieldsOf r) :=
  not_in_renderFieldsD (by decide) (by decide)
    (safe_values_no_special hs (by decide))

theorem rb_not_in_renderFieldsD {r : Rec4} (hs : safeRec r = true) :
    rb ∉ renderFieldsWith renderFieldD (fieldsOf r) :=
  not_in_renderFieldsD (by decide) (by decide)
    (safe_values_no_special hs (by decide))

theorem lb_not_in_renderFieldsS {r : Rec4} (hs : safeRec r = true) :
    lb ∉ renderFieldsWith renderFieldS (fieldsOf r) :=
  not_in_renderFieldsS (by decide) (by decide)
    (safe_values_no_special hs (by decide))

theorem rb_not_in_renderFieldsS {r : Rec4} (hs : safeRec r = true) :
    rb ∉ renderFieldsWith renderFieldS (fieldsOf r) :=
  not_in_renderFieldsS (by decide) (by decide)
    (safe_values_no_special hs (by decide))

theorem jsonLoads_renderObjD (r : Rec4) (hs : safeRec r = true) :
    jsonLoads (renderObjD r) = some (jObjOf r) := by
  unfold jsonLoads
  have h := parseVal_renderObjD r (2 * (renderObjD r).length + 16) []
    hs (by omega)
  rw [List.append_nil] at h
  rw [show skipWs (renderObjD r) = renderObjD r from by
    rw [renderObjD, List.cons_append]
    exact skipWs_nows lb (by decide) _]
  rw [h]
  rfl

theorem objectScan_renderObjD (r : Rec4) (hs : safeRec r = true) :
    objectScan (renderObjD r) = [renderObjD r] := by
  unfold objectScan
  rw [renderObjD, List.cons_append]
  obtain ⟨m, hm⟩ : ∃ m,
      ((lb :: (renderFieldsWith renderFieldD (fieldsOf r) ++ [rb])) : PyStr).length
        = m + 1 :=
    ⟨(renderFieldsWith renderFieldD (fieldsOf r)).length + 1, by simp⟩
  rw [hm]
  rw [show (renderFieldsWith renderFieldD (fieldsOf r) ++ [rb] : PyStr)
      = renderFieldsWith renderFieldD (fieldsOf r) ++ rb :: [] from rfl]
  rw [objectScanF_step _ (rb_not_in_renderFieldsD hs) m []]
  rw [show objectScanF m ([] : PyStr) = [] from by cases m <;> rfl]
  simp

theorem flatRec_safeRec {r : Rec4} (h : flatRec r = true) : safeRec r = true := by
  have himp : ∀ s : PyStr, flatStr s = true → safeStr s = true := by
    intro s hfs
    rw [flatStr, List.all_eq_true] at hfs
    rw [safeStr, List.all_eq_true]
    intro c hc
    have := hfs c hc
    simp only [flatChar, Bool.and_eq_true] at this
    exact this.1.1
  obtain ⟨⟨⟨hn', ha'⟩, hg'⟩, hb'⟩ :
      ((flatStr r.name = true ∧ flatStr r.address = true) ∧
        flatStr r.genre = true) ∧ flatStr r.budget = true := by
    simpa [flatRec] using h
  simp [safeRec, himp _ hn', himp _ ha', himp _ hg', himp _ hb']

theorem flat_values_no_bracket {r : Rec4} (h : flatRec r = true) :
    ∀ p ∈ fieldsOf r, '[' ∉ p.2 := by
  have himp : ∀ s : PyStr, flatStr s = true → '[' ∉ s := by
    intro s hfs hmem
    rw [flatStr, List.all_eq_true] at hfs
    have := hfs '[' hmem
    simp [flatChar] at this
  intro p hp hmem
  obtain ⟨⟨⟨hn', ha'⟩, hg'⟩, hb'⟩ :
      ((flatStr r.name = true ∧ flatStr r.address = true) ∧
        flatStr r.genre = true) ∧ flatStr r.budget = true := by
    simpa [flatRec] using h
  rw [fieldsOf] at hp
  simp only [List.mem_cons] at hp
  rcases hp with he | he | he | he | he <;> first
    | (subst he; exact absurd hmem (by solve_by_elim))
    | simp at he

theorem lbracket_not_in_renderObjD {r : Rec4} (h : flatRec r = true) :
    '[' ∉ renderObjD r := by
  intro hmem
  rw [renderObjD] at hmem
  simp only [List.cons_append, List.mem_cons, List.mem_append] at hmem
  rcases hmem with h1 | h1 | h1 <;> first
    | exact absurd h1 (by decide)
    | exact not_in_renderFieldsD (by decide) (by decide)
        (flat_values_no_bracket h) h1

theorem safe_parse_renderObjD (r : Rec4) (h : flatRec r = true) :
    safe_parse_json (renderObjD r) = .arr [jObjOf r] := by
  unfold safe_parse_json
  rw [pyFind_not_mem (lbracket_not_in_renderObjD h)]
  try dsimp only
  rw [objFallback, objectScan_renderObjD r (flatRec_safeRec h)]
  rw [show List.filterMap jsonLoads [renderObjD r] =
      [jObjOf r] from by
    simp [List.filterMap_cons, jsonLoads_renderObjD r (flatRec_safeRec h)]]

/-- Claim C2 amended: extraction applies the bracket-scoped strategy and then
the minimal-brace object scan (no whole-text direct parse); a single
well-formed double-quoted JSON object over the flat character class (no
braces, no brackets, no quotes in its values) carrying the four required keys
is recovered by the object scan, yielding exactly that object record. -/
theorem c2_amended : ∀ r : Rec4, flatRec r = true →
    extractRecords (renderObjD r) = .ok [recOf r] := by
  intro r h
  unfold extractRecords
  rw [safe_parse_renderObjD r h]
  show restLoop [jObjOf r] = _
  rw [show jObjOf r = JValue.obj [(nameK, JValue.str r.name),
    (addressK, .str r.address), (genreK, .str r.genre),
    (budgetK, .str r.budget)] from rfl]
  rw [restLoop, pvm_jObjOf]
  rfl

/-- Claim C2 amended, witness at a concrete flat object. -/
theorem c2_amended_witness :
    extractRecords (renderObjD ⟨['a'], ['b'], ['c'], ['d']⟩) =
      .ok [recOf ⟨['a'], ['b'], ['c'], ['d']⟩] :=
  c2_amended ⟨['a'], ['b'], ['c'], ['d']⟩ (by decide)

theorem objMembers_sq_none (n : Nat) (l : PyStr) : objMembers n (sq :: l) = none := by
  cases n with
  | zero => rfl
  | succ m =>
    rw [objMembers]
    try dsimp only
    rw [if_neg (by decide)]

theorem parseVal_lbsq_none (n : Nat) (l : PyStr) : parseVal n (lb :: sq :: l) = none := by
  cases n with
  | zero => rfl
  | succ m =>
    rw [parseVal]
    try dsimp only
    rw [if_neg (by decide), if_pos rfl, skipWs_nows sq (by decide)]
    try dsimp only
    rw [if_neg (by decide), objMembers_sq_none]
    rfl

theorem jsonLoads_lbsq_none (l : PyStr) : jsonLoads (lb :: sq :: l) = none := by
  unfold jsonLoads
  rw [skipWs_nows lb (by decide), parseVal_lbsq_none]

theorem arrElems_lbsq_none (n : Nat) (l : PyStr) : arrElems n (lb :: sq :: l) = none := by
  cases n with
  | zero => rfl
  | succ m =>
    rw [arrElems, parseVal_lbsq_none]

theorem renderFieldsS_head (r : Rec4) :
    ∃ Y, renderFieldsWith renderFieldS (fieldsOf r) = sq :: Y := by
  rw [fieldsOf, renderFieldsWith_cons2, renderFieldS]
  simp

theorem renderObjS_head (r : Rec4) : ∃ Y, renderObjS r = lb :: sq :: Y := by
  obtain ⟨Y, hY⟩ := renderFieldsS_head r
  refine ⟨Y ++ [rb], ?_⟩
  rw [renderObjS, hY]
  simp

theorem joinObjsS_head (q : Rec4) (t : List Rec4) :
    ∃ Y, joinObjs renderObjS (q :: t) = lb :: sq :: Y := by
  obtain ⟨Y, hY⟩ := renderObjS_head q
  cases t with
  | nil => exact ⟨Y, by rw [joinObjs, hY]⟩
  | cons a b =>
    refine ⟨Y ++ ',' :: ' ' :: joinObjs renderObjS (a :: b), ?_⟩
    rw [joinObjs_cons2, hY]
    simp

theorem jsonLoads_renderArrS_none (r : Rec4) (t : List Rec4) :
    jsonLoads (renderArrS (r :: t)) = none := by
  unfold jsonLoads
  rw [renderArrS]
  simp only [List.cons_append]
  rw [skipWs_nows '[' (by decide)]
  obtain ⟨m, hm⟩ : ∃ m,
      2 * ('[' :: (joinObjs renderObjS (r :: t) ++ [']'])).length + 16 = m + 1 :=
    ⟨_, rfl⟩
  rw [hm, parseVal]
  try dsimp only
  rw [if_neg (by decide), if_neg (by decide), if_pos rfl]
  obtain ⟨Y, hY⟩ := joinObjsS_head r t
  rw [hY]
  simp only [List.cons_append]
  rw [skipWs_nows lb (by decide)]
  try dsimp only
  rw [if_neg (by decide), arrElems_lbsq_none]
  rfl

theorem breakAtRBrace_ok : ∀ {l : PyStr} {inner rest : PyStr},
    lbSqOkB l = true → breakAtRBrace l = some (inner, rest) → lbSqOkB rest = true := by
  intro l
  induction l with
  | nil => intro inner rest _ h; simp [breakAtRBrace] at h
  | cons c t ih =>
    intro inner rest hok h
    rw [lbSqOkB, Bool.and_eq_true] at hok
    rw [breakAtRBrace] at h
    by_cases hc : c = rb
    · rw [if_pos hc] at h
      injection h with h2
      injection h2 with ha hb3
      subst hb3
      exact hok.2
    · rw [if_neg hc] at h
      cases hb : breakAtRBrace t with
      | none => rw [hb] at h; exact absurd h (by simp)
      | some p =>
        rw [hb] at h
        simp only [Option.map_some'] at h
        injection h with h2
        have := congrArg Prod.snd h2
        simp at this
        rw [← this]
        exact ih hok.2 hb

theorem objectScanF_lbsq_none : ∀ (n : Nat) (l : PyStr), lbSqOkB l = true →
    (objectScanF n l).filterMap jsonLoads = [] := by
  intro n
  induction n with
  | zero => intro l _; rfl
  | succ m ih =>
    intro l hok
    cases l with
    | nil => rfl
    | cons c t =>
      rw [lbSqOkB, Bool.and_eq_true] at hok
      rw [objectScanF]
      by_cases hc : c = lb
      · rw [if_pos hc]
        subst hc
        have hsq : ∃ t', t = sq :: t' := by
          rcases hok with ⟨h1, _⟩
          simp only [bne_self_eq_false, Bool.false_or] at h1
          cases t with
          | nil => simp [headIsSq] at h1
          | cons x t' =>
            rw [headIsSq] at h1
            simp only [decide_eq_true_eq] at h1
            exact ⟨t', by rw [h1]⟩
        obtain ⟨t', rfl⟩ := hsq
        cases hb : breakAtRBrace (sq :: t') with
        | none => rfl
        | some p =>
          have hinner : ∃ i', p.1 = sq :: i' := by
            rw [breakAtRBrace, if_neg (by decide)] at hb
            cases hb2 : breakAtRBrace t' with
            | none => rw [hb2] at hb; exact absurd hb (by simp)
            | some w =>
              rw [hb2] at hb
              simp only [Option.map_some'] at hb
              injection hb with h3
              exact ⟨w.1, by rw [← h3]⟩
          obtain ⟨i', hi⟩ := hinner
          rw [List.filterMap_cons]
          rw [show jsonLoads (lb :: p.1 ++ [rb]) = none from by
            rw [hi]
            simp only [List.cons_append]
            exact jsonLoads_lbsq_none (i' ++ [rb])]
          refine ih p.2 (breakAtRBrace_ok ?_ hb)
          have h5 := hok.2
          rw [lbSqOkB, Bool.and_eq_true] at h5 ⊢
          exact ⟨by simp [show (sq != lb) = true from by decide], h5.2⟩
      · rw [if_neg hc]
        exact ih t hok.2

theorem lbSqOkB_append_noLb : ∀ {a : PyStr}, lb ∉ a → ∀ {b : PyStr},
    lbSqOkB b = true → lbSqOkB (a ++ b) = true := by
  intro a
  induction a with
  | nil => intro _ b hb; simpa using hb
  | cons c a' ih =>
    intro h b hb
    simp only [List.mem_cons, not_or] at h
    rw [List.cons_append, lbSqOkB, Bool.and_eq_true]
    refine ⟨?_, ih h.2 hb⟩
    have : (c != lb) = true := by
      simp only [bne_iff_ne, ne_eq]
      exact fun e => h.1 e.symm
    simp [this]

theorem lbSqOkB_obj (r : Rec4) (hs : safeRec r = true) {rest : PyStr}
    (hrest : lbSqOkB rest = true) : lbSqOkB (renderObjS r ++ rest) = true := by
  obtain ⟨Y, hY⟩ := renderFieldsS_head r
  rw [renderObjS]
  simp only [List.cons_append, List.append_assoc, List.nil_append]
  rw [lbSqOkB, Bool.and_eq_true]
  constructor
  · rw [hY, List.cons_append, headIsSq]
    simp
  · refine lbSqOkB_append_noLb (lb_not_in_renderFieldsS hs) ?_
    rw [lbSqOkB, Bool.and_eq_true]
    exact ⟨by simp [show (rb != lb) = true from by decide], hrest⟩

theorem lbSqOkB_joinS : ∀ (rs : List Rec4), (∀ r ∈ rs, safeRec r = true) →
    ∀ {rest : PyStr}, lbSqOkB rest = true →
    lbSqOkB (joinObjs renderObjS rs ++ rest) = true := by
  intro rs
  induction rs with
  | nil => intro _ rest hrest; simpa using hrest
  | cons r t ih =>
    intro hs rest hrest
    cases t with
    | nil =>
      rw [joinObjs]
      exact lbSqOkB_obj r (hs r (by simp)) hrest
    | cons q t2 =>
      rw [joinObjs_cons2, List.append_assoc, List.cons_append, List.cons_append]
      refine lbSqOkB_obj r (hs r (by simp)) ?_
      rw [lbSqOkB, Bool.and_eq_true]
      refine ⟨by simp [show (',' != lb) = true from by decide], ?_⟩
      rw [lbSqOkB, Bool.and_eq_true]
      refine ⟨by simp [show (' ' != lb) = true from by decide], ?_⟩
      exact ih (fun x hx => hs x (by simp [hx])) hrest

theorem lbSqOkB_renderArrS (rs : List Rec4) (hs : ∀ r ∈ rs, safeRec r = true) :
    lbSqOkB (renderArrS rs) = true := by
  rw [renderArrS, List.cons_append, lbSqOkB, Bool.and_eq_true]
  refine ⟨by simp [show ('[' != lb) = true from by decide], ?_⟩
  exact lbSqOkB_joinS rs hs (by decide)

theorem pyFind_cons_self (c : Char) (t : PyStr) : pyFind c (c :: t) = some 0 := by
  rw [pyFind, if_pos rfl]

theorem safe_parse_renderArrS (r : Rec4) (t : List Rec4)
    (hs : ∀ x ∈ r :: t, safeRec x = true) :
    safe_parse_json (renderArrS (r :: t)) = .arr [] := by
  unfold safe_parse_json
  have h1 : pyFind '[' (renderArrS (r :: t)) = some 0 := by
    rw [renderArrS, List.cons_append]
    exact pyFind_cons_self '[' _
  have h2 : pyRFind ']' (renderArrS (r :: t))
      = some ('[' :: joinObjs renderObjS (r :: t)).length := by
    rw [renderArrS]
    exact pyRFind_concat ']' _
  rw [h1, h2]
  try dsimp only
  rw [if_pos (by simp)]
  have h3 : pySlice (renderArrS (r :: t)) 0
      (('[' :: joinObjs renderObjS (r :: t)).length + 1) = renderArrS (r :: t) := by
    have hl : ('[' :: joinObjs renderObjS (r :: t)).length + 1
        = (renderArrS (r :: t)).length := by
      simp [renderArrS]
    rw [hl, pySlice_zero_len]
  rw [h3, jsonLoads_renderArrS_none r t]
  rw [objFallback]
  rw [show objectScan (renderArrS (r :: t)) = objectScanF
    (renderArrS (r :: t)).length (renderArrS (r :: t)) from rfl]
  rw [objectScanF_lbsq_none _ _ (lbSqOkB_renderArrS (r :: t) hs)]

theorem extractRecords_renderArrS (r : Rec4) (t : List Rec4)
    (hs : ∀ x ∈ r :: t, safeRec x = true) :
    extractRecords (renderArrS (r :: t)) = .ok [] := by
  unfold extractRecords
  rw [safe_parse_renderArrS r t hs]
  rfl

/-! ### The quote-repair scanners on rendered texts -/

theorem dropWhile_len_le (p : Char → Bool) : ∀ l : PyStr,
    (l.dropWhile p).length ≤ l.length := by
  intro l
  induction l with
  | nil => simp
  | cons c t ih =>
    rw [List.dropWhile_cons]
    cases hc : p c with
    | true => simp only [if_true]; exact Nat.le_succ_of_le ih
    | false => simp

theorem twa (p : Char → Bool) : ∀ {k : PyStr}, (∀ c ∈ k, p c = true) →
    ∀ {c₀ : Char}, p c₀ = false → ∀ rest,
      (k ++ c₀ :: rest).takeWhile p = k ∧ (k ++ c₀ :: rest).dropWhile p = c₀ :: rest := by
  intro k
  induction k with
  | nil =>
    intro _ c₀ h rest
    constructor
    · rw [List.nil_append, List.takeWhile_cons, h]
      simp
    · rw [List.nil_append, List.dropWhile_cons, h]
      simp
  | cons c k' ih =>
    intro hall c₀ h rest
    have hc : p c = true := hall c (by simp)
    have ih2 := ih (fun x hx => hall x (by simp [hx])) h rest
    constructor
    · rw [List.cons_append, List.takeWhile_cons, hc]
      simp only [if_true]
      rw [ih2.1]
    · rw [List.cons_append, List.dropWhile_cons, hc]
      simp only [if_true]
      exact ih2.2

theorem dwa_notall (p : Char → Bool) : ∀ {v : PyStr}, v.all p = false →
    ∀ x, (v ++ x).dropWhile p = v.dropWhile p ++ x := by
  intro v
  induction v with
  | nil => intro h; simp at h
  | cons c v' ih =>
    intro h x
    rw [List.all_cons] at h
    cases hc : p c with
    | true =>
      rw [hc] at h
      simp only [Bool.true_and] at h
      rw [List.cons_append, List.dropWhile_cons, hc, List.dropWhile_cons, hc]
      simp only [if_true]
      exact ih h x
    | false =>
      rw [List.cons_append, List.dropWhile_cons, hc, List.dropWhile_cons, hc]
      simp

theorem dw_head (p : Char → Bool) : ∀ {v : PyStr}, v.all p = false →
    ∃ c₀ b, v.dropWhile p = c₀ :: b ∧ c₀ ∈ v ∧ p c₀ = false := by
  intro v
  induction v with
  | nil => intro h; simp at h
  | cons c v' ih =>
    intro h
    rw [List.all_cons] at h
    cases hc : p c with
    | true =>
      rw [hc] at h
      simp only [Bool.true_and] at h
      obtain ⟨c₀, b, h1, h2, h3⟩ := ih h
      exact ⟨c₀, b, by rw [List.dropWhile_cons, hc]; simpa using h1, by simp [h2], h3⟩
    | false =>
      exact ⟨c, v', by rw [List.dropWhile_cons, hc]; simp, by simp, hc⟩

theorem keyMatch_nonsq {c : Char} (h : c ≠ sq) (t : PyStr) :
    keyMatch (c :: t) = none := by
  simp only [keyMatch]
  rw [if_neg h]

theorem keyMatch_key {k : PyStr} (hk : ∀ c ∈ k, isWordChar c = true) (hne : k ≠ [])
    (tail : PyStr) : keyMatch (sq :: (k ++ sq :: ':' :: tail)) = some (k, tail) := by
  simp only [keyMatch]
  rw [if_pos trivial]
  have h := twa isWordChar hk (show isWordChar sq = false from by decide) (':' :: tail)
  rw [h.2]
  try dsimp only
  rw [h.1, if_pos ⟨rfl, rfl, hne⟩]

theorem keyMatch_val_none {v : PyStr} (hsq : sq ∉ v) {sep : PyStr}
    (hsep : sep.head? ≠ some ':') :
    keyMatch (sq :: (v ++ sq :: sep)) = none := by
  simp only [keyMatch]
  rw [if_pos trivial]
  cases hall : v.all isWordChar with
  | true =>
    have hmem : ∀ c ∈ v, isWordChar c = true := by
      rw [List.all_eq_true] at hall
      exact hall
    have h := twa isWordChar hmem (show isWordChar sq = false from by decide) sep
    rw [h.2]
    cases sep with
    | nil => rfl
    | cons h₀ t₀ =>
      try dsimp only
      rw [if_neg (fun hcon => hsep (by rw [hcon.2.1]; rfl))]
  | false =>
    obtain ⟨c₀, b, hdw, hmem, hc₀⟩ := dw_head isWordChar hall
    rw [dwa_notall isWordChar hall (sq :: sep), hdw]
    have hc₀sq : c₀ ≠ sq := fun e => hsq (e ▸ hmem)
    cases b with
    | nil =>
      simp only [List.cons_append, List.nil_append]
      try dsimp only
      rw [if_neg (fun hcon => hc₀sq hcon.1)]
    | cons x b' =>
      simp only [List.cons_append]
      try dsimp only
      rw [if_neg (fun hcon => hc₀sq hcon.1)]

theorem keyMatch_length : ∀ {l w tail}, keyMatch l = some (w, tail) →
    tail.length + 3 ≤ l.length := by
  intro l w tail h
  cases l with
  | nil => simp [keyMatch] at h
  | cons c t =>
    simp only [keyMatch] at h
    by_cases hc : c = sq
    · rw [if_pos hc] at h
      have hdk := dropWhile_len_le isWordChar t
      cases hdw : t.dropWhile isWordChar with
      | nil => rw [hdw] at h; exact absurd h (by simp)
      | cons c2 t2 =>
        cases t2 with
        | nil => rw [hdw] at h; exact absurd h (by simp)
        | cons c3 tail2 =>
          rw [hdw] at h
          try dsimp only at h
          split at h
          · injection h with h2
            injection h2 with ha hb
            subst hb
            rw [hdw] at hdk
            simp only [List.length_cons, List.length_cons] at hdk ⊢
            omega
          · exact absurd h (by simp)
    · rw [if_neg hc] at h
      exact absurd h (by simp)

theorem subKeysF_congr : ∀ (k : Nat), ∀ {l : PyStr}, l.length ≤ k →
    ∀ {n m : Nat}, l.length ≤ n → l.length ≤ m → subKeysF n l = subKeysF m l := by
  intro k
  induction k with
  | zero =>
    intro l hl n m _ _
    have : l = [] := by
      cases l with
      | nil => rfl
      | cons c t => simp at hl
    subst this
    cases n <;> cases m <;> rfl
  | succ k' ih =>
    intro l hl n m hn hm
    cases l with
    | nil => cases n <;> cases m <;> rfl
    | cons c t =>
      simp only [List.length_cons] at hl hn hm
      obtain ⟨n', rfl⟩ : ∃ n', n = n' + 1 := ⟨n - 1, by omega⟩
      obtain ⟨m', rfl⟩ : ∃ m', m = m' + 1 := ⟨m - 1, by omega⟩
      rw [subKeysF, subKeysF]
      try dsimp only
      by_cases htr : (isPySpace c || c = lb || c = ',') = true
      · rw [if_pos htr, if_pos htr]
        cases hkm : keyMatch t with
        | none =>
          try dsimp only
          rw [ih (l := t) (n := n') (m := m') (by omega) (by omega) (by omega)]
        | some p =>
          obtain ⟨w, tail⟩ := p
          try dsimp only
          have hlen := keyMatch_length hkm
          rw [ih (l := tail) (n := n') (m := m') (by omega) (by omega) (by omega)]
      · rw [if_neg htr, if_neg htr]
        rw [ih (l := t) (n := n') (m := m') (by omega) (by omega) (by omega)]

theorem subKeys_cons_nt {c : Char} {t : PyStr}
    (h : (isPySpace c || c = lb || c = ',') = false) :
    subKeys (c :: t) = c :: subKeys t := by
  unfold subKeys
  rw [show ((c :: t : PyStr)).length = t.length + 1 from rfl, subKeysF]
  try dsimp only
  rw [if_neg (by simp [h])]

theorem subKeys_cons_tr_none {c : Char} {t : PyStr}
    (htr : (isPySpace c || c = lb || c = ',') = true) (hkm : keyMatch t = none) :
    subKeys (c :: t) = c :: subKeys t := by
  unfold subKeys
  rw [show ((c :: t : PyStr)).length = t.length + 1 from rfl, subKeysF]
  try dsimp only
  rw [if_pos htr, hkm]

theorem subKeys_cons_tr_some {c : Char} {t w tail : PyStr}
    (htr : (isPySpace c || c = lb || c = ',') = true)
    (hkm : keyMatch t = some (w, tail)) :
    subKeys (c :: t) = c :: '"' :: w ++ '"' :: ':' :: subKeys tail := by
  unfold subKeys
  rw [show ((c :: t : PyStr)).length = t.length + 1 from rfl, subKeysF]
  try dsimp only
  rw [if_pos htr, hkm]
  try dsimp only
  have hlen := keyMatch_length hkm
  rw [subKeysF_congr t.length (l := tail) (n := t.length) (m := tail.length)
    (by omega) (by omega) (by omega)]

theorem valMatch_some {v : PyStr} (hsq : sq ∉ v) (sep : PyStr) :
    valMatch (' ' :: sq :: (v ++ sq :: sep)) = some (v, sep) := by
  simp only [valMatch]
  rw [List.dropWhile_cons]
  rw [show isPySpace ' ' = true from by decide]
  simp only [if_true]
  rw [List.dropWhile_cons]
  rw [show isPySpace sq = false from by decide]
  simp only [Bool.false_eq_true, if_false]
  try dsimp only
  rw [if_pos trivial]
  have hv : ∀ c ∈ v, (c != sq) = true := by
    intro c hc
    simp only [bne_iff_ne, ne_eq]
    exact fun e => hsq (e ▸ hc)
  have h := twa (fun x => x != sq) hv (show (sq != sq) = false from by simp) sep
  rw [h.2]
  try dsimp only
  rw [h.1]

theorem valMatch_length : ∀ {l v tail}, valMatch l = some (v, tail) →
    tail.length + 2 ≤ l.length := by
  intro l v tail h
  simp only [valMatch] at h
  have hd1 := dropWhile_len_le isPySpace l
  cases hdw : l.dropWhile isPySpace with
  | nil => rw [hdw] at h; exact absurd h (by simp)
  | cons c t =>
    rw [hdw] at h
    try dsimp only at h
    by_cases hc : c = sq
    · rw [if_pos hc] at h
      have hd2 := dropWhile_len_le (fun x => x != sq) t
      cases hdw2 : t.dropWhile (fun x => x != sq) with
      | nil => rw [hdw2] at h; exact absurd h (by simp)
      | cons c2 tail2 =>
        rw [hdw2] at h
        try dsimp only at h
        injection h with h2
        injection h2 with ha hb
        subst hb
        rw [hdw] at hd1
        rw [hdw2] at hd2
        simp only [List.length_cons] at hd1 hd2
        omega
    · rw [if_neg hc] at h
      exact absurd h (by simp)

theorem subValsF_congr : ∀ (k : Nat), ∀ {l : PyStr}, l.length ≤ k →
    ∀ {n m : Nat}, l.length ≤ n → l.length ≤ m → subValsF n l = subValsF m l := by
  intro k
  induction k with
  | zero =>
    intro l hl n m _ _
    have : l = [] := by
      cases l with
      | nil => rfl
      | cons c t => simp at hl
    subst this
    cases n <;> cases m <;> rfl
  | succ k' ih =>
    intro l hl n m hn hm
    cases l with
    | nil => cases n <;> cases m <;> rfl
    | cons c t =>
      simp only [List.length_cons] at hl hn hm
      obtain ⟨n', rfl⟩ : ∃ n', n = n' + 1 := ⟨n - 1, by omega⟩
      obtain ⟨m', rfl⟩ : ∃ m', m = m' + 1 := ⟨m - 1, by omega⟩
      rw [subValsF, subValsF]
      try dsimp only
      by_cases hc : c = ':'
      · rw [if_pos hc, if_pos hc]
        cases hvm : valMatch t with
        | none =>
          try dsimp only
          rw [ih (l := t) (n := n') (m := m') (by omega) (by omega) (by omega)]
        | some p =>
          obtain ⟨v, tail⟩ := p
          try dsimp only
          have hlen := valMatch_length hvm
          rw [ih (l := tail) (n := n') (m := m') (by omega) (by omega) (by omega)]
      · rw [if_neg hc, if_neg hc]
        rw [ih (l := t) (n := n') (m := m') (by omega) (by omega) (by omega)]

theorem subVals_cons_nc {c : Char} {t : PyStr} (h : ¬ c = ':') :
    subVals (c :: t) = c :: subVals t := by
  unfold subVals
  rw [show ((c :: t : PyStr)).length = t.length + 1 from rfl, subValsF]
  try dsimp only
  rw [if_neg h]

theorem subVals_cons_colon {t v tail : PyStr} (hvm : valMatch t = some (v, tail)) :
    subVals (':' :: t) = ':' :: ' ' :: '"' :: v ++ '"' :: subVals tail := by
  unfold subVals
  rw [show ((':' :: t : PyStr)).length = t.length + 1 from rfl, subValsF]
  try dsimp only
  rw [if_pos rfl, hvm]
  try dsimp only
  have hlen := valMatch_length hvm
  rw [subValsF_congr t.length (l := tail) (n := t.length) (m := tail.length)
    (by omega) (by omega) (by omega)]

theorem keyMatch_nonword_head {sep : PyStr}
    (h : ∀ x, sep.head? = some x → isWordChar x = false ∧ x ≠ sq) :
    keyMatch (sq :: sep) = none := by
  cases sep with
  | nil => rfl
  | cons x t =>
    obtain ⟨hw, hx⟩ := h x rfl
    simp only [keyMatch]
    rw [if_pos trivial, List.dropWhile_cons, hw]
    simp only [Bool.false_eq_true, if_false]
    cases t with
    | nil => rfl
    | cons y t2 =>
      try dsimp only
      rw [if_neg (fun hcon => hx hcon.1)]

/-- Characters of the safe class are never apostrophes, and the key-repair
scan copies a safe value region unchanged. -/
theorem valueScanK : ∀ {v : PyStr}, safeStr v = true →
    ∀ {sep : PyStr}, (∀ x, sep.head? = some x →
      isWordChar x = false ∧ x ≠ sq ∧ x ≠ ':') →
    subKeys (v ++ sq :: sep) = v ++ sq :: subKeys sep := by
  intro v
  induction v with
  | nil =>
    intro _ sep _
    rw [List.nil_append, subKeys_cons_nt (by decide)]
    rfl
  | cons c v' ih =>
    intro hsafe sep hsep
    obtain ⟨hc, hv'⟩ := safeStr_cons hsafe
    have hrec := ih hv' hsep
    rw [List.cons_append]
    by_cases htr : (isPySpace c || c = lb || c = ',') = true
    · have hkm : keyMatch (v' ++ sq :: sep) = none := by
        cases v' with
        | nil =>
          rw [List.nil_append]
          exact keyMatch_nonword_head (fun x hx => ⟨(hsep x hx).1, (hsep x hx).2.1⟩)
        | cons d v'' =>
          rw [List.cons_append]
          refine keyMatch_nonsq ?_ _
          have := safeChar_not_special (safeStr_cons hv').1
          exact this.2.2.1
      rw [subKeys_cons_tr_none htr hkm, hrec]
      simp only [List.cons_append]
    · rw [subKeys_cons_nt (by simpa using htr), hrec]
      simp only [List.cons_append]

/-- One member `'key': 'value'` after a trigger character is rewritten to
`"key": 'value'` by the key repair. -/
theorem memberScanK {c : Char} (htr : (isPySpace c || c = lb || c = ',') = true)
    {k : PyStr} (hk : ∀ x ∈ k, isWordChar x = true) (hkne : k ≠ [])
    {v : PyStr} (hv : safeStr v = true)
    (sep : PyStr) (hsep : ∀ x, sep.head? = some x →
      isWordChar x = false ∧ x ≠ sq ∧ x ≠ ':') :
    subKeys (c :: (sq :: (k ++ sq :: ':' :: ' ' :: sq :: (v ++ sq :: sep)))) =
      c :: '"' :: k ++ '"' :: ':' :: ' ' :: sq :: (v ++ sq :: subKeys sep) := by
  rw [subKeys_cons_tr_some htr (keyMatch_key hk hkne (' ' :: sq :: (v ++ sq :: sep)))]
  have hsq : sq ∉ v := by
    intro hmem
    exact absurd rfl (safeChar_not_special (safeStr_mem hv hmem)).2.2.1
  rw [subKeys_cons_tr_none (by decide)
    (keyMatch_val_none hsq (fun e => (hsep ':' (by
      cases sep with
      | nil => simp at e
      | cons x t => exact e)).2.2 rfl))]
  rw [subKeys_cons_nt (by decide), valueScanK hv hsep]

theorem key_wf {k : PyStr}
    (h : k = nameK ∨ k = addressK ∨ k = genreK ∨ k = budgetK) :
    (∀ x ∈ k, isWordChar x = true) ∧ k ≠ [] := by
  rcases h with h | h | h | h <;> subst h <;> exact ⟨by decide, by decide⟩

/-- The key repair rewrites every member of a single-quoted member list,
leaving the values single-quoted. -/
theorem fieldsScanK : ∀ (fl : List (PyStr × PyStr)),
    (∀ p ∈ fl, (∀ x ∈ p.1, isWordChar x = true) ∧ p.1 ≠ [] ∧ safeStr p.2 = true) →
    ∀ {c : Char}, (isPySpace c || c = lb || c = ',') = true →
    ∀ (sep : PyStr),
    subKeys (c :: (renderFieldsWith renderFieldS fl ++ rb :: sep)) =
      c :: (renderFieldsWith renderFieldM fl ++ rb :: subKeys sep) := by
  intro fl
  induction fl with
  | nil =>
    intro _ c htr sep
    show subKeys (c :: rb :: sep) = c :: rb :: subKeys sep
    rw [subKeys_cons_tr_none htr (keyMatch_nonsq (by decide) sep),
      subKeys_cons_nt (by decide)]
  | cons p fl' ih =>
    intro hwf c htr sep
    obtain ⟨hk, hkne, hv⟩ := hwf p (List.mem_cons_self p fl')
    cases fl' with
    | nil =>
      show subKeys (c :: (renderFieldS p.1 p.2 ++ rb :: sep)) =
        c :: (renderFieldM p.1 p.2 ++ rb :: subKeys sep)
      have hm := memberScanK htr hk hkne hv
        (rb :: sep) (fun x hx => by
          simp only [List.head?_cons, Option.some.injEq] at hx
          subst hx; exact ⟨by decide, by decide, by decide⟩)
      rw [subKeys_cons_nt (c := rb) (t := sep) (by decide)] at hm
      rw [renderFieldS, renderFieldM]
      simp only [List.cons_append, List.append_assoc, List.nil_append] at hm ⊢
      exact hm
    | cons q t =>
      rw [renderFieldsWith_cons2, renderFieldsWith_cons2]
      have hm := memberScanK htr hk hkne hv
        (',' :: ' ' :: (renderFieldsWith renderFieldS (q :: t) ++ rb :: sep))
        (fun x hx => by
          simp only [List.head?_cons, Option.some.injEq] at hx
          subst hx; exact ⟨by decide, by decide, by decide⟩)
      rw [subKeys_cons_tr_none (c := ',') (by decide)
        (keyMatch_nonsq (c := ' ') (by decide) _)] at hm
      rw [ih (fun q hq => hwf q (List.mem_cons_of_mem p hq)) (c := ' ')
        (by decide) sep] at hm
      rw [renderFieldS, renderFieldM]
      simp only [List.cons_append, List.append_assoc, List.nil_append] at hm ⊢
      exact hm

/-- The key repair on one rendered single-quoted object, followed by any
continuation. -/
theorem objScanK (r : Rec4) (hs : safeRec r = true) (sep : PyStr) :
    subKeys (renderObjS r ++ sep) = renderObjM r ++ subKeys sep := by
  have h := fieldsScanK (fieldsOf r)
    (fun p hp => ⟨(key_wf (keys_of_fieldsOf hp)).1, (key_wf (keys_of_fieldsOf hp)).2,
      values_of_fieldsOf hs hp⟩)
    (c := lb) (by decide) sep
  rw [renderObjS, renderObjM]
  simp only [List.cons_append, List.append_assoc, List.nil_append] at h ⊢
  exact h

/-- The key repair on the joined object list. -/
theorem joinScanK : ∀ (rs : List Rec4), (∀ r ∈ rs, safeRec r = true) →
    ∀ (sep : PyStr), subKeys (joinObjs renderObjS rs ++ sep) =
      joinObjs renderObjM rs ++ subKeys sep := by
  intro rs
  induction rs with
  | nil => intro _ sep; rfl
  | cons r rs' ih =>
    intro hs sep
    have hr := hs r (List.mem_cons_self r rs')
    cases rs' with
    | nil =>
      show subKeys (renderObjS r ++ sep) = renderObjM r ++ subKeys sep
      exact objScanK r hr sep
    | cons q t =>
      rw [joinObjs_cons2, joinObjs_cons2]
      have hko : keyMatch (joinObjs renderObjS (q :: t) ++ sep) = none := by
        obtain ⟨Y, hY⟩ := joinObjsS_head q t
        rw [hY, List.cons_append]
        exact keyMatch_nonsq (by decide) _
      have h := objScanK r hr (',' :: ' ' :: (joinObjs renderObjS (q :: t) ++ sep))
      rw [subKeys_cons_tr_none (c := ',') (by decide)
          (keyMatch_nonsq (c := ' ') (by decide) _),
        subKeys_cons_tr_none (c := ' ') (by decide) hko,
        ih (fun x hx => hs x (List.mem_cons_of_mem r hx)) sep] at h
      simp only [List.cons_append, List.append_assoc, List.nil_append] at h ⊢
      exact h

/-- The first substitution pass of `fix_json_single_quotes` turns a rendered
single-quoted array into its mid form: double-quoted keys, single-quoted
values. -/
theorem subKeys_renderArrS (rs : List Rec4) (hs : ∀ r ∈ rs, safeRec r = true) :
    subKeys (renderArrS rs) = renderArrM rs := by
  rw [renderArrS, renderArrM]
  simp only [List.cons_append]
  rw [subKeys_cons_nt (c := '[') (by decide), joinScanK rs hs [(']' : Char)]]
  have hz : subKeys [(']' : Char)] = [(']' : Char)] := rfl
  rw [hz]

theorem copyNC : ∀ {s : PyStr}, (':' : Char) ∉ s →
    ∀ (t : PyStr), subVals (s ++ t) = s ++ subVals t := by
  intro s
  induction s with
  | nil => intro _ t; rfl
  | cons c s' ih =>
    intro hnc t
    rw [List.cons_append, subVals_cons_nc (fun e => hnc (e ▸ List.mem_cons_self c s')),
      ih (fun hm => hnc (List.mem_cons_of_mem c hm)) t, List.cons_append]

/-- One mid-form member `"key": 'value'` is rewritten to `"key": "value"` by
the value repair. -/
theorem memberScanV {k : PyStr} (hk : (':' : Char) ∉ k)
    {v : PyStr} (hv : sq ∉ v) (sep : PyStr) :
    subVals ('"' :: (k ++ '"' :: ':' :: ' ' :: sq :: (v ++ sq :: sep))) =
      '"' :: k ++ '"' :: ':' :: ' ' :: '"' :: v ++ '"' :: subVals sep := by
  have hpre : (':' : Char) ∉ ('"' :: k ++ ['"']) := by
    intro hm
    rcases List.mem_cons.mp hm with h | h
    · exact absurd h (by decide)
    · rcases List.mem_append.mp h with h | h
      · exact hk h
      · exact absurd h (by decide)
  have h := copyNC hpre (':' :: ' ' :: sq :: (v ++ sq :: sep))
  simp only [List.cons_append, List.append_assoc, List.nil_append] at h
  rw [h, subVals_cons_colon (valMatch_some hv sep)]
  simp only [List.cons_append, List.append_assoc, List.nil_append]

/-- The value repair rewrites every member of a mid-form member list. -/
theorem fieldsScanV : ∀ (fl : List (PyStr × PyStr)),
    (∀ p ∈ fl, (':' : Char) ∉ p.1 ∧ sq ∉ p.2) →
    ∀ (sep : PyStr),
    subVals (renderFieldsWith renderFieldM fl ++ sep) =
      renderFieldsWith renderFieldD fl ++ subVals sep := by
  intro fl
  induction fl with
  | nil => intro _ sep; rfl
  | cons p fl' ih =>
    intro hwf sep
    obtain ⟨hk, hv⟩ := hwf p (List.mem_cons_self p fl')
    cases fl' with
    | nil =>
      show subVals (renderFieldM p.1 p.2 ++ sep) = renderFieldD p.1 p.2 ++ subVals sep
      have hm := memberScanV hk hv sep
      rw [renderFieldM, renderFieldD]
      simp only [List.cons_append, List.append_assoc, List.nil_append] at hm ⊢
      exact hm
    | cons q t =>
      rw [renderFieldsWith_cons2, renderFieldsWith_cons2]
      have hm := memberScanV hk hv
        (',' :: ' ' :: (renderFieldsWith renderFieldM (q :: t) ++ sep))
      rw [subVals_cons_nc (c := ',') (by decide),
        subVals_cons_nc (c := ' ') (by decide),
        ih (fun x hx => hwf x (List.mem_cons_of_mem p hx)) sep] at hm
      rw [renderFieldM, renderFieldD]
      simp only [List.cons_append, List.append_assoc, List.nil_append] at hm ⊢
      exact hm

/-- The value repair on one mid-form object, followed by any continuation. -/
theorem objScanV (r : Rec4) (hs : safeRec r = true) (sep : PyStr) :
    subVals (renderObjM r ++ sep) = renderObjD r ++ subVals sep := by
  have hwf : ∀ p ∈ fieldsOf r, (':' : Char) ∉ p.1 ∧ sq ∉ p.2 := by
    intro p hp
    constructor
    · rcases keys_of_fieldsOf hp with h | h | h | h <;> rw [h] <;> decide
    · intro hm
      exact absurd rfl
        (safeChar_not_special (safeStr_mem (values_of_fieldsOf hs hp) hm)).2.2.1
  have h := fieldsScanV (fieldsOf r) hwf (rb :: sep)
  rw [subVals_cons_nc (by decide)] at h
  rw [renderObjM, renderObjD]
  simp only [List.cons_append, List.append_assoc, List.nil_append] at h ⊢
  rw [subVals_cons_nc (c := lb) (by decide), h]

/-- The value repair on the joined mid-form object list. -/
theorem joinScanV : ∀ (rs : List Rec4), (∀ r ∈ rs, safeRec r = true) →
    ∀ (sep : PyStr), subVals (joinObjs renderObjM rs ++ sep) =
      joinObjs renderObjD rs ++ subVals sep := by
  intro rs
  induction rs with
  | nil => intro _ sep; rfl
  | cons r rs' ih =>
    intro hs sep
    have hr := hs r (List.mem_cons_self r rs')
    cases rs' with
    | nil =>
      show subVals (renderObjM r ++ sep) = renderObjD r ++ subVals sep
      exact objScanV r hr sep
    | cons q t =>
      rw [joinObjs_cons2, joinObjs_cons2]
      have h := objScanV r hr (',' :: ' ' :: (joinObjs renderObjM (q :: t) ++ sep))
      rw [subVals_cons_nc (c := ',') (by decide),
        subVals_cons_nc (c := ' ') (by decide),
        ih (fun x hx => hs x (List.mem_cons_of_mem r hx)) sep] at h
      simp only [List.cons_append, List.append_assoc, List.nil_append] at h ⊢
      exact h

/-- The second substitution pass turns the mid form into the double-quoted
array. -/
theorem subVals_renderArrM (rs : List Rec4) (hs : ∀ r ∈ rs, safeRec r = true) :
    subVals (renderArrM rs) = renderArrD rs := by
  rw [renderArrM, renderArrD]
  simp only [List.cons_append]
  rw [subVals_cons_nc (c := '[') (by decide), joinScanV rs hs [(']' : Char)]]
  have hz : subVals [(']' : Char)] = [(']' : Char)] := rfl
  rw [hz]

/-- The quote-repair helper maps the rendered single-quoted array to the
rendered double-quoted array. -/
theorem fix_renderArrS (rs : List Rec4) (hs : ∀ r ∈ rs, safeRec r = true) :
    fix_json_single_quotes (renderArrS rs) = renderArrD rs := by
  rw [fix_json_single_quotes, subKeys_renderArrS rs hs, subVals_renderArrM rs hs]

theorem level1_try_of_empty_then {c : PyStr} {r2 : Restaurant} {t2 : List Restaurant}
    (h1 : extractRecords c = .ok [])
    (h2 : extractRecords (fix_json_single_quotes c) = .ok (r2 :: t2)) :
    level1_try c = .ok (r2 :: t2) := by
  unfold level1_try
  rw [h1]
  try dsimp only
  rw [if_pos (show ([] : List Restaurant).isEmpty = true from rfl), h2]
  try dsimp only
  rw [if_neg (by simp)]

theorem level1_try_of_ok_cons {c : PyStr} {r2 : Restaurant} {t2 : List Restaurant}
    (h1 : extractRecords c = .ok (r2 :: t2)) :
    level1_try c = .ok (r2 :: t2) := by
  unfold level1_try
  rw [h1]
  try dsimp only
  rw [if_neg (by simp)]
  try dsimp only
  rw [if_neg (by simp)]

/-- Claim C7: on a nonempty array rendered with single quotes around both
keys and values, the Level-1 extraction pipeline (parse, then quote repair
and re-parse) yields exactly the records of the equivalent double-quoted
text: the two pipelines agree, and both return one record per element in
order with field values preserved. -/
theorem claim_c7 (r : Rec4) (t : List Rec4)
    (hs : ∀ x ∈ r :: t, safeRec x = true) :
    level1_try (renderArrS (r :: t)) = level1_try (renderArrD (r :: t)) ∧
      level1_try (renderArrS (r :: t)) = .ok ((r :: t).map recOf) := by
  have hD : extractRecords (renderArrD (r :: t)) = .ok (recOf r :: t.map recOf) := by
    have h := extractRecords_renderArrD (r :: t) hs
    simpa using h
  have hS := extractRecords_renderArrS r t hs
  have hfix : extractRecords (fix_json_single_quotes (renderArrS (r :: t)))
      = .ok (recOf r :: t.map recOf) := by
    rw [fix_renderArrS (r :: t) hs]
    exact hD
  have e1 : level1_try (renderArrS (r :: t)) = .ok (recOf r :: t.map recOf) :=
    level1_try_of_empty_then hS hfix
  have e2 : level1_try (renderArrD (r :: t)) = .ok (recOf r :: t.map recOf) :=
    level1_try_of_ok_cons hD
  exact ⟨e1.trans e2.symm, by rw [e1]; simp⟩

/-- Claim C7 witness at a concrete one-element single-quoted array. -/
theorem claim_c7_witness :
    level1_try (renderArrS [⟨['p'], ['q'], ['r'], ['s']⟩]) =
        level1_try (renderArrD [⟨['p'], ['q'], ['r'], ['s']⟩]) ∧
      level1_try (renderArrS [⟨['p'], ['q'], ['r'], ['s']⟩]) =
        .ok ([(⟨['p'], ['q'], ['r'], ['s']⟩ : Rec4)].map recOf) :=
  claim_c7 ⟨['p'], ['q'], ['r'], ['s']⟩ [] (by decide)

end AiApp
